import Mathlib

/-!
Verification of the spanning-tree network controller
(`src/csep561/net/spanning_tree_network.py`).

The embedding models the controller state as a `NetState`: the registry of
known switches, the per-switch ordered link lists, the set of links whose
active flag is true, the per-switch MAC tables, and the current root.
Functions defined from the source are annotated with the source lines they
embed.  The repository ships only `spanning_tree_network.py`; the `Link`
class, the Dijkstra engine (`graph/dijkstra.py`), and the `Network` base
class are collaborators whose code is not in the repository, so they are
modelled from the specification (each such definition carries a
`Modelled from the spec:` comment).

Machine integers do not occur (dpids, ports and MAC addresses are opaque
identifiers, modelled as `Nat`).
-/

/-- Modelled from the spec (section 3, "Link"): one directed edge
`(port on this switch) -> (neighbor switch, neighbor port)`.  The owning
switch is `src`, the local port `port`, the neighbor `dst`, the neighbor
port `dstPort`.  The active flag is not a field here: it is represented by
membership in `NetState.active`, so that a `Link` and its reverse carry
independent flags, as the two Python `Link` objects do. -/
structure Link where
  src : Nat
  port : Nat
  dst : Nat
  dstPort : Nat
deriving DecidableEq, Repr

/-- Modelled from the spec (section 3): every Link has exactly one reverse
Link, the link on the neighbor switch pointing back to this switch/port;
`get_reverse()` resolves it in O(1).  Structurally the reverse is determined
by swapping the endpoint data. -/
def Link.reverse (l : Link) : Link := ⟨l.dst, l.dstPort, l.src, l.port⟩

/-- The controller state.  `switches` is the device registry (dpids in
connect order), `adj` the per-switch ordered link lists (discovery order),
`active` the set of links whose active flag is true, `tables` the MAC
tables (keyed by (switch dpid, mac)), `root` the current root switch. -/
structure NetState where
  switches : List Nat
  adj : List (Nat × List Link)
  active : List Link
  tables : List ((Nat × Nat) × Nat)
  root : Option Nat
deriving DecidableEq, Repr

/-- Modelled from the spec (section 3, "SwitchNode"): `switch.links`, the
ordered collection of outgoing Link instances of a switch. -/
def linksOf (st : NetState) (d : Nat) : List Link :=
  (st.adj.lookup d).getD []

/-- The links of a switch whose active flag is true (the links
`_teach_mac_location` may follow). -/
def activeLinksOf (st : NetState) (d : Nat) : List Link :=
  (linksOf st d).filter (fun l => decide (l ∈ st.active))

/-- All links of all switches. -/
def allLinks (st : NetState) : List Link :=
  (st.adj.map Prod.snd).flatten

/-- Keep the first occurrence of every element (the effect of keying the
Python `nodes` dictionary by dpid: later duplicates are collapsed). -/
def dedupKeepFirst {α : Type} [DecidableEq α] : List α → List α
  | [] => []
  | x :: xs => x :: dedupKeepFirst (xs.filter (fun y => decide (y ≠ x)))
termination_by l => l.length
decreasing_by
  have h := List.length_filter_le (fun y => decide (y ≠ x)) xs
  simp only [List.length_cons]
  omega

/- The next two lemmas are measure helpers required by the termination
arguments of the worklist definitions below. -/

theorem filter_length_mono {α : Type} (l : List α) (p q : α → Bool)
    (h : ∀ x, q x = true → p x = true) : (l.filter q).length ≤ (l.filter p).length := by
  induction l with
  | nil => simp
  | cons z zs ih =>
    cases hqz : q z with
    | true =>
      rw [List.filter_cons_of_pos hqz, List.filter_cons_of_pos (h z hqz)]
      simpa using ih
    | false =>
      rw [List.filter_cons_of_neg (by simp [hqz])]
      cases hpz : p z with
      | true =>
        rw [List.filter_cons_of_pos hpz]
        exact Nat.le_succ_of_le ih
      | false =>
        rw [List.filter_cons_of_neg (by simp [hpz])]
        exact ih

theorem filter_length_strict {α : Type} (l : List α) (p q : α → Bool)
    (h : ∀ x, q x = true → p x = true) (y : α) (hyl : y ∈ l) (hp : p y = true)
    (hq : q y = false) : (l.filter q).length < (l.filter p).length := by
  induction l with
  | nil => simp at hyl
  | cons z zs ih =>
    rcases List.mem_cons.1 hyl with rfl | hyzs
    · rw [List.filter_cons_of_neg (by simp [hq]), List.filter_cons_of_pos hp]
      exact Nat.lt_succ_of_le (filter_length_mono zs p q h)
    · cases hqz : q z with
      | true =>
        rw [List.filter_cons_of_pos hqz, List.filter_cons_of_pos (h z hqz)]
        simpa using ih hyzs
      | false =>
        rw [List.filter_cons_of_neg (by simp [hqz])]
        cases hpz : p z with
        | true =>
          rw [List.filter_cons_of_pos hpz]
          exact Nat.lt_succ_of_lt (ih hyzs)
        | false =>
          rw [List.filter_cons_of_neg (by simp [hpz])]
          exact ih hyzs

/-- The reachability sweep of `_rebuild_spanning_tree`
(`spanning_tree_network.py` lines 34-45): a worklist loop over the list
`switches` with index `i`; `done` is the processed prefix (the Python
`added` set accumulates exactly its members), `pending` the unprocessed
suffix.  Every iteration appends, for the current switch, the targets of
its links whose switch is not yet in `added`; the Python list may
therefore contain duplicate dpids, which downstream code collapses
through the `nodes` dictionary.  `U` is a superset of every dpid that can
ever be enqueued (the guard on it is dead code for the states arising in
this development; Lean's termination checker requires it). -/
def sweepAux (adjF : Nat → List Link) (U : List Nat) (done pending : List Nat) : List Nat :=
  match pending with
  | [] => done
  | s :: rest =>
    if hU : s ∈ U then
      let done2 := done ++ [s]
      let fresh := ((adjF s).filter (fun l => !(decide (l.dst ∈ done2)))).map (fun l => l.dst)
      sweepAux adjF U done2 (rest ++ fresh)
    else done ++ pending
termination_by ((U.dedup.filter (fun x => !(decide (x ∈ done)))).length,
  (pending.filter (fun x => decide (x ∈ done))).length)
decreasing_by
  by_cases hsd : s ∈ done
  · apply Prod.Lex.right'
    · apply filter_length_mono
      intro x hx
      rw [Bool.not_eq_true', decide_eq_false_iff_not] at hx ⊢
      exact fun hxd => hx (List.mem_append_left _ hxd)
    · have hRHS : ((s :: rest).filter (fun x => decide (x ∈ done))).length
          = (rest.filter (fun x => decide (x ∈ done))).length + 1 := by
        rw [List.filter_cons_of_pos (by simp [hsd])]
        simp
      have hfreshnil : (((adjF s).filter (fun l => !(decide (l.dst ∈ done ++ [s])))).map
          (fun l => l.dst)).filter (fun x => decide (x ∈ done ++ [s])) = [] := by
        apply List.filter_eq_nil_iff.2
        intro x hx
        rcases List.mem_map.1 hx with ⟨l, hl, rfl⟩
        have h2 := (List.mem_filter.1 hl).2
        rw [Bool.not_eq_true', decide_eq_false_iff_not] at h2
        simpa using h2
      have hcongr : rest.filter (fun x => decide (x ∈ done ++ [s]))
          = rest.filter (fun x => decide (x ∈ done)) := by
        apply List.filter_congr
        intro x _
        by_cases hx : x ∈ done
        · simp [hx]
        · have hxs : x ∉ done ++ [s] := by
            intro h2
            rcases List.mem_append.1 h2 with h3 | h3
            · exact hx h3
            · simp at h3; subst h3; exact hx hsd
          simp [hx, hxs]
      rw [hRHS, List.filter_append, hfreshnil, List.append_nil, hcongr]
      omega
  · apply Prod.Lex.left
    apply filter_length_strict U.dedup _ _ ?h s (List.mem_dedup.2 hU) (by simp [hsd]) (by simp)
    case h =>
      intro x hx
      rw [Bool.not_eq_true', decide_eq_false_iff_not] at hx ⊢
      exact fun hxd => hx (List.mem_append_left _ hxd)

/-- Every dpid that can appear in a worklist seeded from a known switch:
the registry keys and every link target. -/
def universeOf (st : NetState) : List Nat :=
  st.adj.map Prod.fst ++ (allLinks st).map (fun l => l.dst)

/-- The deduplicated scope of a rebuild started at `start`: the keys of the
Python `nodes` dictionary built from the sweep's `switches` list. -/
def reachList (st : NetState) (start : Nat) : List Nat :=
  dedupKeepFirst (sweepAux (linksOf st) (start :: universeOf st) [] [start])

/-- Modelled from the spec (section 4.3, Shortest-Path Engine): classic
single-source search over the unweighted graph given by `nbrs`, restricted
to `nodes`, producing for every discovered node the neighbor on its
shortest path back toward the source.  `pred` accumulates `(node,
predecessor)` pairs, `visited` the discovered nodes (marked on enqueue, so
each node is discovered once; ties between equal-cost paths go to the
first-discovered edge), `queue` the FIFO worklist. -/
def bfsAux (nbrs : Nat → List Nat) (nodes : List Nat) (pred : List (Nat × Nat))
    (visited queue : List Nat) : List (Nat × Nat) :=
  match queue with
  | [] => pred
  | s :: rest =>
    let fresh := dedupKeepFirst
      ((nbrs s).filter (fun v => decide (v ∈ nodes) && !(decide (v ∈ visited))))
    bfsAux nbrs nodes (pred ++ fresh.map (fun v => (v, s))) (visited ++ fresh) (rest ++ fresh)
termination_by ((nodes.dedup.filter (fun x => !(decide (x ∈ visited)))).length, queue.length)
decreasing_by
  rcases hf : dedupKeepFirst
      ((nbrs s).filter (fun v => decide (v ∈ nodes) && !(decide (v ∈ visited)))) with _ | ⟨w, ws⟩
  · apply Prod.Lex.right'
    · apply filter_length_mono
      intro x hx
      rw [Bool.not_eq_true', decide_eq_false_iff_not] at hx ⊢
      exact fun hxd => hx (List.mem_append_left _ hxd)
    · simp [hf]
  · apply Prod.Lex.left
    have hw : w ∈ dedupKeepFirst
        ((nbrs s).filter (fun v => decide (v ∈ nodes) && !(decide (v ∈ visited)))) := by
      rw [hf]; exact List.mem_cons_self w ws
    have hw2 : w ∈ (nbrs s).filter (fun v => decide (v ∈ nodes) && !(decide (v ∈ visited))) := by
      clear hf
      generalize hl : (nbrs s).filter (fun v => decide (v ∈ nodes) && !(decide (v ∈ visited))) = L
      rw [hl] at hw
      clear hl
      induction L using dedupKeepFirst.induct with
      | case1 => simp [dedupKeepFirst] at hw
      | case2 x xs ih =>
        rw [dedupKeepFirst] at hw
        rcases List.mem_cons.1 hw with rfl | hw3
        · exact List.mem_cons_self _ _
        · exact List.mem_cons_of_mem _ (List.mem_of_mem_filter (ih hw3))
    have hw3 := List.mem_filter.1 hw2
    have hwn : w ∈ nodes := by
      have h2 := hw3.2
      simp at h2
      exact h2.1
    have hwv : w ∉ visited := by
      have h2 := hw3.2
      simp at h2
      exact h2.2
    apply filter_length_strict _ _ _ ?h w (List.mem_dedup.2 hwn) (by simp [hwv])
    · simp
    case h =>
      intro x hx
      rw [Bool.not_eq_true', decide_eq_false_iff_not] at hx ⊢
      exact fun hxd => hx (List.mem_append_left _ hxd)

/-- Modelled from the spec (section 4.3): `find_shortest_paths(source,
allNodes)` returns an entry for every node in `allNodes`; unreachable
nodes and the source itself map to none, every other reachable node to
the neighbor on its shortest path toward the source. -/
def find_shortest_paths (nbrs : Nat → List Nat) (source : Nat) (nodes : List Nat) :
    List (Nat × Option Nat) :=
  let pred := bfsAux nbrs nodes [] [source] [source]
  nodes.map (fun d => (d, pred.lookup d))

/-- Add to a set-as-list (no effect when already present); models
inserting into a Python set, and setting an already-true active flag. -/
def addIfAbsent {α : Type} [DecidableEq α] (x : α) (xs : List α) : List α :=
  if x ∈ xs then xs else xs ++ [x]

/-- Remove from a set-as-list; models `set.discard`. -/
def removeAll {α : Type} [DecidableEq α] (x : α) (xs : List α) : List α :=
  xs.filter (fun y => decide (y ≠ x))

/-- The accumulator of the activation loop of `_rebuild_spanning_tree`
(lines 56-81): the current set of links whose active flag is true, the
`best_links` set, and the `links_to_deactivate` set. -/
structure ActState where
  act : List Link
  best : List Link
  deact : List Link
deriving DecidableEq, Repr

/-- The inner loop of lines 60-77: for every link of the switch
`node_name`, if the link's target is the best neighbor `b`, activate the
link and its reverse, record both as best links and discard both from the
deactivation set; otherwise, if neither direction is already a best link,
add both directions to the deactivation set. -/
def actNode (ls : List Link) (b : Nat) (a : ActState) : ActState :=
  match ls with
  | [] => a
  | l :: rest =>
    let r := l.reverse
    if l.dst = b then
      actNode rest b
        ⟨addIfAbsent r (addIfAbsent l a.act), addIfAbsent r (addIfAbsent l a.best),
          removeAll r (removeAll l a.deact)⟩
    else if l ∉ a.best ∧ r ∉ a.best then
      actNode rest b ⟨a.act, a.best, addIfAbsent r (addIfAbsent l a.deact)⟩
    else
      actNode rest b a

/-- The outer loop of lines 57-77 over the best-path table: nodes whose
best predecessor is none are skipped. -/
def actPaths (adjF : Nat → List Link) (paths : List (Nat × Option Nat)) (a : ActState) :
    ActState :=
  match paths with
  | [] => a
  | (_, none) :: ps => actPaths adjF ps a
  | (d, some b) :: ps => actPaths adjF ps (actNode (adjF d) b a)

/-- The Dijkstra-graph adjacency built on lines 48-51: each node's
neighbor list mirrors the targets of its switch's links, in link order
(parallel links yield repeated neighbors). -/
def nbrsOf (st : NetState) : Nat → List Nat :=
  fun d => (linksOf st d).map (fun l => l.dst)

/-- The best-path table of a rebuild started at `start` (line 53). -/
def pathsOf (st : NetState) (start : Nat) : List (Nat × Option Nat) :=
  find_shortest_paths (nbrsOf st) start (reachList st start)

/-- The final accumulator of the activation loop (lines 56-77), starting
from the current active set, an empty `best_links` set and an empty
`links_to_deactivate` set. -/
def rebuildAct (st : NetState) (start : Nat) : ActState :=
  actPaths (linksOf st) (pathsOf st start) ⟨st.active, [], []⟩

/-- `_rebuild_spanning_tree` with a resolved (non-none) start switch
(lines 33-85): sweep the connected component of `start`, mirror it into a
Dijkstra graph, compute best predecessors, then activate the best links
and finally deactivate every link left in `links_to_deactivate`
(lines 80-81): a link's final flag is true iff it is in the accumulated
active set and not in the deactivation set. -/
def rebuildFrom (st : NetState) (start : Nat) : NetState :=
  let a := rebuildAct st start
  { st with active := a.act.filter (fun l => !(decide (l ∈ a.deact))) }

/-- The failure `_rebuild_spanning_tree` hits when invoked with no start
and no established root: line 38 dereferences `None` (`switch.links`)
and raises AttributeError before any state is written. -/
inductive RebuildError where
  | noneStart : RebuildError
deriving DecidableEq, Repr

/-- `_rebuild_spanning_tree(start)` (lines 30-85): a none start falls back
to `self.root`; if that is also none the attribute access on line 43
raises (no state has been mutated at that point). -/
def rebuild (st : NetState) (start : Option Nat) : Except RebuildError NetState :=
  match (match start with | some s => some s | none => st.root) with
  | none => .error .noneStart
  | some s => .ok (rebuildFrom st s)

/-- Overwrite the binding of `mac` on switch `d` with `port`.  Modelled
from the spec (sections 3 and 4.5): `learn_mac_location` records
`mac -> port` in the switch's local table, overwriting any prior
binding. -/
def tableSet (t : List ((Nat × Nat) × Nat)) (d mac port : Nat) : List ((Nat × Nat) × Nat) :=
  t.filter (fun e => decide (e.1 ≠ (d, mac))) ++ [((d, mac), port)]

/-- Look up the port recorded for `mac` on switch `d`. -/
def tableGet (t : List ((Nat × Nat) × Nat)) (d mac : Nat) : Option Nat :=
  t.lookup (d, mac)

/-- `_teach_mac_location(switch, mac, port)` (lines 92-98): record the
binding on the switch, then recurse on every link whose local port
differs from `port` and whose active flag is true, passing the reverse
link's port.  The Python recursion has no explicit depth bound; `fuel`
bounds the recursion depth so that the embedding is total, and `none`
reports that the recursion exceeded the given depth. -/
def teachAux (st : NetState) : Nat → Nat → Nat → Nat → List ((Nat × Nat) × Nat) →
    Option (List ((Nat × Nat) × Nat))
  | 0, _, _, _, _ => none
  | fuel + 1, d, mac, port, t =>
    let t1 := tableSet t d mac port
    ((linksOf st d).filter (fun l => decide (l.port ≠ port) && decide (l ∈ st.active))).foldl
      (fun acc l => acc.bind (fun t2 => teachAux st fuel l.dst mac l.reverse.port t2)) (some t1)

/-- The error raised by `_handle_switch_LinkDiscoveryEvent` (lines
106-112) when an endpoint is unknown; `rebuildFailed` models the
propagation of an exception out of the rebuild call on line 126 (dead
code: the root is always established at that point). -/
inductive EventError where
  | unknownLocal : Nat → EventError
  | unknownRemote : Nat → EventError
  | rebuildFailed : EventError
deriving DecidableEq, Repr

/-- Modelled from the spec (sections 4.1 and 3): `add_link` creates the
pair of cross-linked Links, both initialized inactive, when the (local
switch, local port) edge is previously unseen; rediscovery of a known
(switch, port) edge does not create duplicate entries (the policy the
spec records for the ambiguous rediscovery case, section 9).
`adjAppend` appends one direction to its owner's link list. -/
def adjAppend (a : List (Nat × List Link)) (d : Nat) (l : Link) : List (Nat × List Link) :=
  a.map (fun e => if e.1 = d then (e.1, e.2 ++ [l]) else e)

/-- The two cross-linked directions are appended to their owners' link
lists (local direction first), both initialized inactive. -/
def addLink (st : NetState) (l lp r rp : Nat) : NetState :=
  if (linksOf st l).any (fun k => decide (k.port = lp)) then st
  else { st with adj := adjAppend (adjAppend st.adj l ⟨l, lp, r, rp⟩) r ⟨r, rp, l, lp⟩ }

/-- `_handle_switch_LinkDiscoveryEvent` (lines 105-126): look up both
endpoints (raising on an unknown one before any mutation), record the
link pair, update the root to the smaller dpid (local endpoint first,
then remote), and rebuild the spanning tree from the (possibly updated)
root. -/
def rootUpdate (o : Option Nat) (l r : Nat) : Option Nat :=
  let r1 : Option Nat :=
    match o with
    | none => some l
    | some rt => if l < rt then some l else some rt
  match r1 with
  | none => some r
  | some rt => if r < rt then some r else some rt

/-- The root comparison of lines 117-121, local endpoint first, then the
remote one; see `rootUpdate`. -/
def handleLinkDiscovery (st : NetState) (l lp r rp : Nat) : Except EventError NetState :=
  if decide (l ∈ st.switches) then
    if decide (r ∈ st.switches) then
      let st1 := addLink st l lp r rp
      let st2 := { st1 with root := rootUpdate st1.root l r }
      match rebuild st2 none with
      | .ok st3 => .ok st3
      | .error _ => .error .rebuildFailed
    else .error (.unknownRemote r)
  else .error (.unknownLocal l)

/-- The inbound events this core handles (spec section 6); switch
connection is the construction hook of the `Network` base class. -/
inductive Event where
  | connect : Nat → Event
  | linkDiscovery : Nat → Nat → Nat → Nat → Event
deriving DecidableEq, Repr

/-- Modelled from the spec (section 3, SwitchNode lifecycle; section 6,
construction hook): a connecting switch is registered with an empty link
list; the root and the links are untouched. -/
def handleConnect (st : NetState) (d : Nat) : NetState :=
  if decide (d ∈ st.switches) then st
  else { st with switches := st.switches ++ [d], adj := st.adj ++ [(d, [])] }

/-- One event, run to completion (spec section 5).  A link-discovery
event whose handler raises aborts only that event: the state is
unchanged and the process continues. -/
def step (st : NetState) (e : Event) : NetState :=
  match e with
  | .connect d => handleConnect st d
  | .linkDiscovery l lp r rp =>
    match handleLinkDiscovery st l lp r rp with
    | .ok st2 => st2
    | .error _ => st

/-- The empty initial state: no switches, no links, no root. -/
def initState : NetState := ⟨[], [], [], [], none⟩

/-- The state after processing a list of events in arrival order. -/
def run (es : List Event) : NetState := es.foldl step initState

/-- The endpoint dpids of the successfully processed link-discovery
events of a trace (both lookups succeed), collected by replaying the
trace from `st`. -/
def observedEndpointsAux (st : NetState) : List Event → List Nat
  | [] => []
  | e :: rest =>
    (match e with
     | .connect _ => []
     | .linkDiscovery l _ r _ =>
       if decide (l ∈ st.switches) && decide (r ∈ st.switches) then [l, r] else []) ++
    observedEndpointsAux (step st e) rest

/-! ## Basic facts -/

theorem Link.reverse_reverse (l : Link) : l.reverse.reverse = l := rfl

theorem rebuildFrom_switches (st : NetState) (s : Nat) :
    (rebuildFrom st s).switches = st.switches := rfl

theorem rebuildFrom_adj (st : NetState) (s : Nat) : (rebuildFrom st s).adj = st.adj := rfl

theorem rebuildFrom_tables (st : NetState) (s : Nat) : (rebuildFrom st s).tables = st.tables := rfl

theorem rebuildFrom_root (st : NetState) (s : Nat) : (rebuildFrom st s).root = st.root := rfl

/-! ## C7: rebuild with no start and no root -/

/-- C7 counterexample: invoked with start `none` on the initial state
(where no root has ever been established), `_rebuild_spanning_tree` is
not an error-free no-op: it raises (the Python code dereferences the
`None` start at line 43). -/
theorem rebuild_none_counterexample :
    rebuild initState none = Except.error RebuildError.noneStart := rfl

/-- C7 (amended): if `_rebuild_spanning_tree` is invoked with start
`none` and no root has ever been established, it raises an error; no
state has been mutated at the point of the raise (the embedding returns
the error before any write, mirroring the AttributeError raised at line
43 before any mutation). -/
theorem rebuild_none_no_root_errors (st : NetState) (h : st.root = none) :
    rebuild st none = Except.error RebuildError.noneStart := by
  simp [rebuild, h]

theorem rebuild_none_no_root_errors_witness :
    initState.root = none ∧ rebuild initState none = Except.error RebuildError.noneStart :=
  ⟨rfl, rebuild_none_no_root_errors initState rfl⟩

/-! ## C6: link-discovery events with unknown endpoints -/

/-- C6: if a link-discovery event names a local or remote switch
identifier unknown to the topology graph, the handler fails with an
error naming the offending endpoint, and the state is unchanged: no link
is added, the root is not updated, and no rebuild is triggered (the
event is processed to no effect). -/
theorem linkDiscovery_unknown_endpoint (st : NetState) (l lp r rp : Nat)
    (h : l ∉ st.switches ∨ r ∉ st.switches) :
    (∃ e, handleLinkDiscovery st l lp r rp = Except.error e ∧
      (e = EventError.unknownLocal l ∨ e = EventError.unknownRemote r)) ∧
    step st (Event.linkDiscovery l lp r rp) = st := by
  by_cases hl : l ∈ st.switches
  · have hr : r ∉ st.switches := by tauto
    refine ⟨⟨EventError.unknownRemote r, ?_, Or.inr rfl⟩, ?_⟩
    · simp [handleLinkDiscovery, hl, hr]
    · simp [step, handleLinkDiscovery, hl, hr]
  · refine ⟨⟨EventError.unknownLocal l, ?_, Or.inl rfl⟩, ?_⟩
    · simp [handleLinkDiscovery, hl]
    · simp [step, handleLinkDiscovery, hl]

theorem linkDiscovery_unknown_endpoint_witness :
    (99 ∉ (NetState.mk [1] [(1, [])] [] [] none).switches ∨ True) ∧
    ((∃ e, handleLinkDiscovery (NetState.mk [1] [(1, [])] [] [] none) 99 3 1 4 =
        Except.error e ∧
      (e = EventError.unknownLocal 99 ∨ e = EventError.unknownRemote 1)) ∧
    step (NetState.mk [1] [(1, [])] [] [] none) (Event.linkDiscovery 99 3 1 4) =
      NetState.mk [1] [(1, [])] [] [] none) :=
  ⟨Or.inl (by decide),
    linkDiscovery_unknown_endpoint (NetState.mk [1] [(1, [])] [] [] none) 99 3 1 4
      (Or.inl (by decide))⟩

/-! ## The activation loop: membership characterization -/

theorem mem_addIfAbsent {α : Type} [DecidableEq α] (x y : α) (xs : List α) :
    x ∈ addIfAbsent y xs ↔ x = y ∨ x ∈ xs := by
  unfold addIfAbsent
  by_cases h : y ∈ xs
  · rw [if_pos h]
    constructor
    · exact Or.inr
    · rintro (rfl | h2)
      · exact h
      · exact h2
  · rw [if_neg h]
    simp [or_comm]

theorem addIfAbsent_of_mem {α : Type} [DecidableEq α] (y : α) (xs : List α) (h : y ∈ xs) :
    addIfAbsent y xs = xs := by
  unfold addIfAbsent
  rw [if_pos h]

theorem mem_removeAll {α : Type} [DecidableEq α] (x y : α) (xs : List α) :
    x ∈ removeAll y xs ↔ x ∈ xs ∧ x ≠ y := by
  unfold removeAll
  simp

theorem actNode_cons_act (l : Link) (rest : List Link) (b : Nat) (a : ActState)
    (h : l.dst = b) :
    actNode (l :: rest) b a = actNode rest b
      ⟨addIfAbsent l.reverse (addIfAbsent l a.act), addIfAbsent l.reverse (addIfAbsent l a.best),
        removeAll l.reverse (removeAll l a.deact)⟩ := by
  simp [actNode, h]

theorem actNode_cons_deact (l : Link) (rest : List Link) (b : Nat) (a : ActState)
    (h : ¬(l.dst = b)) (hg : l ∉ a.best ∧ l.reverse ∉ a.best) :
    actNode (l :: rest) b a = actNode rest b
      ⟨a.act, a.best, addIfAbsent l.reverse (addIfAbsent l a.deact)⟩ := by
  rw [actNode]
  rw [if_neg h, if_pos hg]

theorem actNode_cons_skip (l : Link) (rest : List Link) (b : Nat) (a : ActState)
    (h : ¬(l.dst = b)) (hg : ¬(l ∉ a.best ∧ l.reverse ∉ a.best)) :
    actNode (l :: rest) b a = actNode rest b a := by
  rw [actNode]
  rw [if_neg h, if_neg hg]

theorem actNode_act_mono (ls : List Link) (b : Nat) (a : ActState) (x : Link)
    (hx : x ∈ a.act) : x ∈ (actNode ls b a).act := by
  induction ls generalizing a with
  | nil => exact hx
  | cons l rest ih =>
    by_cases h : l.dst = b
    · rw [actNode_cons_act l rest b a h]
      exact ih _ (by simp [mem_addIfAbsent]; tauto)
    · by_cases hg : l ∉ a.best ∧ l.reverse ∉ a.best
      · rw [actNode_cons_deact l rest b a h hg]
        exact ih _ hx
      · rw [actNode_cons_skip l rest b a h hg]
        exact ih _ hx

theorem actNode_best_mono (ls : List Link) (b : Nat) (a : ActState) (x : Link)
    (hx : x ∈ a.best) : x ∈ (actNode ls b a).best := by
  induction ls generalizing a with
  | nil => exact hx
  | cons l rest ih =>
    by_cases h : l.dst = b
    · rw [actNode_cons_act l rest b a h]
      exact ih _ (by simp [mem_addIfAbsent]; tauto)
    · by_cases hg : l ∉ a.best ∧ l.reverse ∉ a.best
      · rw [actNode_cons_deact l rest b a h hg]
        exact ih _ hx
      · rw [actNode_cons_skip l rest b a h hg]
        exact ih _ hx

theorem actNode_mem_act (ls : List Link) (b : Nat) (a : ActState) (x : Link) :
    x ∈ (actNode ls b a).act ↔
      x ∈ a.act ∨ ∃ l0, l0 ∈ ls ∧ l0.dst = b ∧ (x = l0 ∨ x = l0.reverse) := by
  induction ls generalizing a with
  | nil =>
    simp [actNode]
  | cons l rest ih =>
    by_cases h : l.dst = b
    · rw [actNode_cons_act l rest b a h, ih]
      simp only [mem_addIfAbsent]
      constructor
      · rintro ((h1 | h1 | hx) | ⟨l0, hl0, hd, hx⟩)
        · exact Or.inr ⟨l, by simp, h, Or.inr h1⟩
        · exact Or.inr ⟨l, by simp, h, Or.inl h1⟩
        · exact Or.inl hx
        · exact Or.inr ⟨l0, by simp [hl0], hd, hx⟩
      · rintro (hx | ⟨l0, hl0, hd, hx⟩)
        · exact Or.inl (Or.inr (Or.inr hx))
        · rcases List.mem_cons.1 hl0 with h2 | hl0
          · subst h2
            rcases hx with h3 | h3
            · exact Or.inl (Or.inr (Or.inl h3))
            · exact Or.inl (Or.inl h3)
          · exact Or.inr ⟨l0, hl0, hd, hx⟩
    · by_cases hg : l ∉ a.best ∧ l.reverse ∉ a.best
      · rw [actNode_cons_deact l rest b a h hg, ih]
        constructor
        · rintro (hx | ⟨l0, hl0, hd, hx⟩)
          · exact Or.inl hx
          · exact Or.inr ⟨l0, by simp [hl0], hd, hx⟩
        · rintro (hx | ⟨l0, hl0, hd, hx⟩)
          · exact Or.inl hx
          · rcases List.mem_cons.1 hl0 with rfl | hl0
            · exact absurd hd h
            · exact Or.inr ⟨l0, hl0, hd, hx⟩
      · rw [actNode_cons_skip l rest b a h hg, ih]
        constructor
        · rintro (hx | ⟨l0, hl0, hd, hx⟩)
          · exact Or.inl hx
          · exact Or.inr ⟨l0, by simp [hl0], hd, hx⟩
        · rintro (hx | ⟨l0, hl0, hd, hx⟩)
          · exact Or.inl hx
          · rcases List.mem_cons.1 hl0 with rfl | hl0
            · exact absurd hd h
            · exact Or.inr ⟨l0, hl0, hd, hx⟩

theorem actNode_mem_best (ls : List Link) (b : Nat) (a : ActState) (x : Link) :
    x ∈ (actNode ls b a).best ↔
      x ∈ a.best ∨ ∃ l0, l0 ∈ ls ∧ l0.dst = b ∧ (x = l0 ∨ x = l0.reverse) := by
  induction ls generalizing a with
  | nil =>
    simp [actNode]
  | cons l rest ih =>
    by_cases h : l.dst = b
    · rw [actNode_cons_act l rest b a h, ih]
      simp only [mem_addIfAbsent]
      constructor
      · rintro ((h1 | h1 | hx) | ⟨l0, hl0, hd, hx⟩)
        · exact Or.inr ⟨l, by simp, h, Or.inr h1⟩
        · exact Or.inr ⟨l, by simp, h, Or.inl h1⟩
        · exact Or.inl hx
        · exact Or.inr ⟨l0, by simp [hl0], hd, hx⟩
      · rintro (hx | ⟨l0, hl0, hd, hx⟩)
        · exact Or.inl (Or.inr (Or.inr hx))
        · rcases List.mem_cons.1 hl0 with h2 | hl0
          · subst h2
            rcases hx with h3 | h3
            · exact Or.inl (Or.inr (Or.inl h3))
            · exact Or.inl (Or.inl h3)
          · exact Or.inr ⟨l0, hl0, hd, hx⟩
    · by_cases hg : l ∉ a.best ∧ l.reverse ∉ a.best
      · rw [actNode_cons_deact l rest b a h hg, ih]
        constructor
        · rintro (hx | ⟨l0, hl0, hd, hx⟩)
          · exact Or.inl hx
          · exact Or.inr ⟨l0, by simp [hl0], hd, hx⟩
        · rintro (hx | ⟨l0, hl0, hd, hx⟩)
          · exact Or.inl hx
          · rcases List.mem_cons.1 hl0 with rfl | hl0
            · exact absurd hd h
            · exact Or.inr ⟨l0, hl0, hd, hx⟩
      · rw [actNode_cons_skip l rest b a h hg, ih]
        constructor
        · rintro (hx | ⟨l0, hl0, hd, hx⟩)
          · exact Or.inl hx
          · exact Or.inr ⟨l0, by simp [hl0], hd, hx⟩
        · rintro (hx | ⟨l0, hl0, hd, hx⟩)
          · exact Or.inl hx
          · rcases List.mem_cons.1 hl0 with rfl | hl0
            · exact absurd hd h
            · exact Or.inr ⟨l0, hl0, hd, hx⟩

theorem actNode_deact_sub (ls : List Link) (b : Nat) (a : ActState) (x : Link)
    (hx : x ∈ (actNode ls b a).deact) :
    x ∈ a.deact ∨ ∃ l0, l0 ∈ ls ∧ l0.dst ≠ b ∧ (x = l0 ∨ x = l0.reverse) := by
  induction ls generalizing a with
  | nil => exact Or.inl hx
  | cons l rest ih =>
    by_cases h : l.dst = b
    · rw [actNode_cons_act l rest b a h] at hx
      rcases ih _ hx with hx2 | ⟨l0, hl0, hd, hx2⟩
      · rw [mem_removeAll] at hx2
        rw [mem_removeAll] at hx2
        exact Or.inl hx2.1.1
      · exact Or.inr ⟨l0, by simp [hl0], hd, hx2⟩
    · by_cases hg : l ∉ a.best ∧ l.reverse ∉ a.best
      · rw [actNode_cons_deact l rest b a h hg] at hx
        rcases ih _ hx with hx2 | ⟨l0, hl0, hd, hx2⟩
        · rw [mem_addIfAbsent, mem_addIfAbsent] at hx2
          rcases hx2 with h1 | h1 | h1
          · exact Or.inr ⟨l, by simp, h, Or.inr h1⟩
          · exact Or.inr ⟨l, by simp, h, Or.inl h1⟩
          · exact Or.inl h1
        · exact Or.inr ⟨l0, by simp [hl0], hd, hx2⟩
      · rw [actNode_cons_skip l rest b a h hg] at hx
        rcases ih _ hx with hx2 | ⟨l0, hl0, hd, hx2⟩
        · exact Or.inl hx2
        · exact Or.inr ⟨l0, by simp [hl0], hd, hx2⟩

theorem actNode_deact_persist (ls : List Link) (b : Nat) (a : ActState) (x : Link)
    (hx : x ∈ a.deact) :
    x ∈ (actNode ls b a).deact ∨ x ∈ (actNode ls b a).best := by
  induction ls generalizing a with
  | nil => exact Or.inl hx
  | cons l rest ih =>
    by_cases h : l.dst = b
    · rw [actNode_cons_act l rest b a h]
      by_cases hxl : x = l ∨ x = l.reverse
      · refine Or.inr (actNode_best_mono _ _ _ _ ?_)
        simp only [mem_addIfAbsent]
        tauto
      · refine ih _ ?_
        simp only [mem_removeAll]
        push_neg at hxl
        exact ⟨⟨hx, hxl.1⟩, hxl.2⟩
    · by_cases hg : l ∉ a.best ∧ l.reverse ∉ a.best
      · rw [actNode_cons_deact l rest b a h hg]
        refine ih _ ?_
        simp only [mem_addIfAbsent]
        tauto
      · rw [actNode_cons_skip l rest b a h hg]
        exact ih _ hx

theorem actNode_best_pairclosed (ls : List Link) (b : Nat) (a : ActState)
    (hPC : ∀ y ∈ a.best, y.reverse ∈ a.best) :
    ∀ y ∈ (actNode ls b a).best, y.reverse ∈ (actNode ls b a).best := by
  intro y hy
  rcases (actNode_mem_best ls b a y).1 hy with hy2 | ⟨l0, hl0, hd, hy2⟩
  · exact actNode_best_mono _ _ _ _ (hPC y hy2)
  · refine (actNode_mem_best ls b a y.reverse).2 (Or.inr ⟨l0, hl0, hd, ?_⟩)
    rcases hy2 with h1 | h1
    · exact Or.inr (by rw [h1])
    · exact Or.inl (by rw [h1, Link.reverse_reverse])

theorem actNode_deact_pairclosed (ls : List Link) (b : Nat) (a : ActState)
    (hPC : ∀ y ∈ a.deact, y.reverse ∈ a.deact) :
    ∀ y ∈ (actNode ls b a).deact, y.reverse ∈ (actNode ls b a).deact := by
  induction ls generalizing a with
  | nil => exact hPC
  | cons l rest ih =>
    by_cases h : l.dst = b
    · rw [actNode_cons_act l rest b a h]
      refine ih _ ?_
      intro y hy
      simp only [mem_removeAll] at hy ⊢
      have hrev := hPC y hy.1.1
      refine ⟨⟨hrev, ?_⟩, ?_⟩
      · intro h2
        apply hy.2
        rw [← Link.reverse_reverse y, h2]
      · intro h2
        apply hy.1.2
        rw [← Link.reverse_reverse y, h2, Link.reverse_reverse]
    · by_cases hg : l ∉ a.best ∧ l.reverse ∉ a.best
      · rw [actNode_cons_deact l rest b a h hg]
        refine ih _ ?_
        intro y hy
        simp only [mem_addIfAbsent] at hy ⊢
        rcases hy with h1 | h1 | h1
        · exact Or.inr (Or.inl (by rw [h1, Link.reverse_reverse]))
        · exact Or.inl (by rw [h1])
        · exact Or.inr (Or.inr (hPC y h1))
      · rw [actNode_cons_skip l rest b a h hg]
        exact ih _ hPC

theorem actNode_nonbest_deact (ls : List Link) (b : Nat) (a : ActState) (x l0 : Link)
    (hPC : ∀ y ∈ a.best, y.reverse ∈ a.best) (hl0 : l0 ∈ ls) (hd : l0.dst ≠ b)
    (hx : x = l0 ∨ x = l0.reverse) :
    x ∈ (actNode ls b a).deact ∨ x ∈ (actNode ls b a).best := by
  induction ls generalizing a with
  | nil => simp at hl0
  | cons l rest ih =>
    rcases List.mem_cons.1 hl0 with h2 | hl0r
    · subst h2
      by_cases h : l0.dst = b
      · exact absurd h hd
      · by_cases hg : l0 ∉ a.best ∧ l0.reverse ∉ a.best
        · rw [actNode_cons_deact l0 rest b a h hg]
          apply actNode_deact_persist
          simp only [mem_addIfAbsent]
          tauto
        · rw [actNode_cons_skip l0 rest b a h hg]
          refine Or.inr (actNode_best_mono _ _ _ _ ?_)
          push_neg at hg
          by_cases hb : l0 ∈ a.best
          · rcases hx with h1 | h1
            · rw [h1]; exact hb
            · rw [h1]; exact hPC _ hb
          · have hrb := hg hb
            rcases hx with h1 | h1
            · rw [h1]
              have := hPC _ hrb
              rwa [Link.reverse_reverse] at this
            · rw [h1]; exact hrb
    · by_cases h : l.dst = b
      · rw [actNode_cons_act l rest b a h]
        refine ih _ ?_ hl0r
        intro y hy
        simp only [mem_addIfAbsent] at hy ⊢
        rcases hy with h1 | h1 | h1
        · exact Or.inr (Or.inl (by rw [h1, Link.reverse_reverse]))
        · exact Or.inl (by rw [h1])
        · exact Or.inr (Or.inr (hPC y h1))
      · by_cases hg : l ∉ a.best ∧ l.reverse ∉ a.best
        · rw [actNode_cons_deact l rest b a h hg]
          exact ih _ hPC hl0r
        · rw [actNode_cons_skip l rest b a h hg]
          exact ih _ hPC hl0r

theorem actNode_inv (ls : List Link) (b : Nat) (a : ActState)
    (hInv : ∀ y ∈ a.best, y ∉ a.deact) :
    ∀ y ∈ (actNode ls b a).best, y ∉ (actNode ls b a).deact := by
  induction ls generalizing a with
  | nil => exact hInv
  | cons l rest ih =>
    by_cases h : l.dst = b
    · rw [actNode_cons_act l rest b a h]
      refine ih _ ?_
      intro y hy
      simp only [mem_addIfAbsent] at hy
      simp only [mem_removeAll]
      rcases hy with h1 | h1 | h1
      · intro h2
        exact h2.2 h1
      · intro h2
        exact h2.1.2 h1
      · intro h2
        exact hInv y h1 h2.1.1
    · by_cases hg : l ∉ a.best ∧ l.reverse ∉ a.best
      · rw [actNode_cons_deact l rest b a h hg]
        refine ih _ ?_
        intro y hy
        simp only [mem_addIfAbsent]
        push_neg
        refine ⟨?_, ?_, hInv y hy⟩
        · intro h2
          rw [h2] at hy
          exact hg.2 hy
        · intro h2
          rw [h2] at hy
          exact hg.1 hy
      · rw [actNode_cons_skip l rest b a h hg]
        exact ih _ hInv

/-- Link `x` gets activated (line 63-64) during the activation loop run
over the best-path table `ps`: some node `d` with best predecessor `b`
owns a link `l0` to `b`, and `x` is that link or its reverse. -/
def ActivatedIn (adjF : Nat → List Link) (ps : List (Nat × Option Nat)) (x : Link) : Prop :=
  ∃ d b l0, (d, some b) ∈ ps ∧ l0 ∈ adjF d ∧ l0.dst = b ∧ (x = l0 ∨ x = l0.reverse)

/-- Link `x` is iterated by the loop as a non-best link (the elif branch,
lines 75-77): some node `d` with best predecessor `b` owns a link `l0`
away from `b`, and `x` is that link or its reverse. -/
def NonBestIn (adjF : Nat → List Link) (ps : List (Nat × Option Nat)) (x : Link) : Prop :=
  ∃ d b l0, (d, some b) ∈ ps ∧ l0 ∈ adjF d ∧ l0.dst ≠ b ∧ (x = l0 ∨ x = l0.reverse)

theorem ActivatedIn_nil (adjF : Nat → List Link) (x : Link) : ¬ ActivatedIn adjF [] x := by
  rintro ⟨d, b, l0, hmem, _⟩
  simp at hmem

theorem ActivatedIn_cons_none (adjF : Nat → List Link) (d : Nat)
    (ps : List (Nat × Option Nat)) (x : Link) :
    ActivatedIn adjF ((d, none) :: ps) x ↔ ActivatedIn adjF ps x := by
  constructor
  · rintro ⟨e, b, l0, hmem, h2⟩
    rcases List.mem_cons.1 hmem with h3 | h3
    · simp at h3
    · exact ⟨e, b, l0, h3, h2⟩
  · rintro ⟨e, b, l0, hmem, h2⟩
    exact ⟨e, b, l0, List.mem_cons_of_mem _ hmem, h2⟩

theorem ActivatedIn_cons_some (adjF : Nat → List Link) (d b : Nat)
    (ps : List (Nat × Option Nat)) (x : Link) :
    ActivatedIn adjF ((d, some b) :: ps) x ↔
      (∃ l0, l0 ∈ adjF d ∧ l0.dst = b ∧ (x = l0 ∨ x = l0.reverse)) ∨
        ActivatedIn adjF ps x := by
  constructor
  · rintro ⟨e, c, l0, hmem, h2, h3, h4⟩
    rcases List.mem_cons.1 hmem with h5 | h5
    · rw [Prod.mk.injEq] at h5
      rcases h5 with ⟨h6, h7⟩
      subst h6
      rw [Option.some.injEq] at h7
      subst h7
      exact Or.inl ⟨l0, h2, h3, h4⟩
    · exact Or.inr ⟨e, c, l0, h5, h2, h3, h4⟩
  · rintro (⟨l0, h2, h3, h4⟩ | ⟨e, c, l0, h5, h2, h3, h4⟩)
    · exact ⟨d, b, l0, List.mem_cons_self _ _, h2, h3, h4⟩
    · exact ⟨e, c, l0, List.mem_cons_of_mem _ h5, h2, h3, h4⟩

theorem NonBestIn_nil (adjF : Nat → List Link) (x : Link) : ¬ NonBestIn adjF [] x := by
  rintro ⟨d, b, l0, hmem, _⟩
  simp at hmem

theorem NonBestIn_cons_none (adjF : Nat → List Link) (d : Nat)
    (ps : List (Nat × Option Nat)) (x : Link) :
    NonBestIn adjF ((d, none) :: ps) x ↔ NonBestIn adjF ps x := by
  constructor
  · rintro ⟨e, b, l0, hmem, h2⟩
    rcases List.mem_cons.1 hmem with h3 | h3
    · simp at h3
    · exact ⟨e, b, l0, h3, h2⟩
  · rintro ⟨e, b, l0, hmem, h2⟩
    exact ⟨e, b, l0, List.mem_cons_of_mem _ hmem, h2⟩

theorem NonBestIn_cons_some (adjF : Nat → List Link) (d b : Nat)
    (ps : List (Nat × Option Nat)) (x : Link) :
    NonBestIn adjF ((d, some b) :: ps) x ↔
      (∃ l0, l0 ∈ adjF d ∧ l0.dst ≠ b ∧ (x = l0 ∨ x = l0.reverse)) ∨
        NonBestIn adjF ps x := by
  constructor
  · rintro ⟨e, c, l0, hmem, h2, h3, h4⟩
    rcases List.mem_cons.1 hmem with h5 | h5
    · rw [Prod.mk.injEq] at h5
      rcases h5 with ⟨h6, h7⟩
      subst h6
      rw [Option.some.injEq] at h7
      subst h7
      exact Or.inl ⟨l0, h2, h3, h4⟩
    · exact Or.inr ⟨e, c, l0, h5, h2, h3, h4⟩
  · rintro (⟨l0, h2, h3, h4⟩ | ⟨e, c, l0, h5, h2, h3, h4⟩)
    · exact ⟨d, b, l0, List.mem_cons_self _ _, h2, h3, h4⟩
    · exact ⟨e, c, l0, List.mem_cons_of_mem _ h5, h2, h3, h4⟩

theorem actPaths_best_mono (adjF : Nat → List Link) (ps : List (Nat × Option Nat))
    (a : ActState) (x : Link) (hx : x ∈ a.best) : x ∈ (actPaths adjF ps a).best := by
  induction ps generalizing a with
  | nil => exact hx
  | cons p ps ih =>
    rcases p with ⟨d, _ | b⟩
    · rw [actPaths]
      exact ih _ hx
    · rw [actPaths]
      exact ih _ (actNode_best_mono _ _ _ _ hx)

theorem actPaths_mem_act (adjF : Nat → List Link) (ps : List (Nat × Option Nat))
    (a : ActState) (x : Link) :
    x ∈ (actPaths adjF ps a).act ↔ x ∈ a.act ∨ ActivatedIn adjF ps x := by
  induction ps generalizing a with
  | nil =>
    rw [actPaths]
    simp [ActivatedIn_nil]
  | cons p ps ih =>
    rcases p with ⟨d, _ | b⟩
    · rw [actPaths, ih, ActivatedIn_cons_none]
    · rw [actPaths, ih, ActivatedIn_cons_some, actNode_mem_act]
      exact or_assoc

theorem actPaths_mem_best (adjF : Nat → List Link) (ps : List (Nat × Option Nat))
    (a : ActState) (x : Link) :
    x ∈ (actPaths adjF ps a).best ↔ x ∈ a.best ∨ ActivatedIn adjF ps x := by
  induction ps generalizing a with
  | nil =>
    rw [actPaths]
    simp [ActivatedIn_nil]
  | cons p ps ih =>
    rcases p with ⟨d, _ | b⟩
    · rw [actPaths, ih, ActivatedIn_cons_none]
    · rw [actPaths, ih, ActivatedIn_cons_some, actNode_mem_best]
      exact or_assoc

theorem actPaths_deact_sub (adjF : Nat → List Link) (ps : List (Nat × Option Nat))
    (a : ActState) (x : Link) (hx : x ∈ (actPaths adjF ps a).deact) :
    x ∈ a.deact ∨ NonBestIn adjF ps x := by
  induction ps generalizing a with
  | nil => exact Or.inl hx
  | cons p ps ih =>
    rcases p with ⟨d, _ | b⟩
    · rw [actPaths] at hx
      rw [NonBestIn_cons_none]
      exact ih _ hx
    · rw [actPaths] at hx
      rw [NonBestIn_cons_some]
      rcases ih _ hx with h2 | h2
      · rcases actNode_deact_sub _ _ _ _ h2 with h3 | ⟨l0, h3, h4, h5⟩
        · exact Or.inl h3
        · exact Or.inr (Or.inl ⟨l0, h3, h4, h5⟩)
      · exact Or.inr (Or.inr h2)

theorem actPaths_deact_persist (adjF : Nat → List Link) (ps : List (Nat × Option Nat))
    (a : ActState) (x : Link) (hx : x ∈ a.deact) :
    x ∈ (actPaths adjF ps a).deact ∨ x ∈ (actPaths adjF ps a).best := by
  induction ps generalizing a with
  | nil => exact Or.inl hx
  | cons p ps ih =>
    rcases p with ⟨d, _ | b⟩
    · rw [actPaths]
      exact ih _ hx
    · rw [actPaths]
      rcases actNode_deact_persist (adjF d) b a x hx with h2 | h2
      · exact ih _ h2
      · exact Or.inr (actPaths_best_mono _ _ _ _ h2)

theorem actPaths_best_pairclosed (adjF : Nat → List Link) (ps : List (Nat × Option Nat))
    (a : ActState) (hPC : ∀ y ∈ a.best, y.reverse ∈ a.best) :
    ∀ y ∈ (actPaths adjF ps a).best, y.reverse ∈ (actPaths adjF ps a).best := by
  induction ps generalizing a with
  | nil => exact hPC
  | cons p ps ih =>
    rcases p with ⟨d, _ | b⟩
    · rw [actPaths]
      exact ih _ hPC
    · rw [actPaths]
      exact ih _ (actNode_best_pairclosed _ _ _ hPC)

theorem actPaths_deact_pairclosed (adjF : Nat → List Link) (ps : List (Nat × Option Nat))
    (a : ActState) (hPCb : ∀ y ∈ a.best, y.reverse ∈ a.best)
    (hPCd : ∀ y ∈ a.deact, y.reverse ∈ a.deact) :
    ∀ y ∈ (actPaths adjF ps a).deact, y.reverse ∈ (actPaths adjF ps a).deact := by
  induction ps generalizing a with
  | nil => exact hPCd
  | cons p ps ih =>
    rcases p with ⟨d, _ | b⟩
    · rw [actPaths]
      exact ih _ hPCb hPCd
    · rw [actPaths]
      exact ih _ (actNode_best_pairclosed _ _ _ hPCb) (actNode_deact_pairclosed _ _ _ hPCd)

theorem actPaths_nonbest_deact (adjF : Nat → List Link) (ps : List (Nat × Option Nat))
    (a : ActState) (x : Link) (hPC : ∀ y ∈ a.best, y.reverse ∈ a.best)
    (hx : NonBestIn adjF ps x) :
    x ∈ (actPaths adjF ps a).deact ∨ x ∈ (actPaths adjF ps a).best := by
  induction ps generalizing a with
  | nil => exact absurd hx (NonBestIn_nil adjF x)
  | cons p ps ih =>
    rcases p with ⟨d, _ | b⟩
    · rw [actPaths]
      exact ih _ hPC ((NonBestIn_cons_none adjF d ps x).1 hx)
    · rw [actPaths]
      rcases (NonBestIn_cons_some adjF d b ps x).1 hx with ⟨l0, h2, h3, h4⟩ | h2
      · rcases actNode_nonbest_deact (adjF d) b a x l0 hPC h2 h3 h4 with h5 | h5
        · rcases actPaths_deact_persist adjF ps _ x h5 with h6 | h6
          · exact Or.inl h6
          · exact Or.inr h6
        · exact Or.inr (actPaths_best_mono _ _ _ _ h5)
      · exact ih _ (actNode_best_pairclosed _ _ _ hPC) h2

theorem actPaths_inv (adjF : Nat → List Link) (ps : List (Nat × Option Nat))
    (a : ActState) (hInv : ∀ y ∈ a.best, y ∉ a.deact) :
    ∀ y ∈ (actPaths adjF ps a).best, y ∉ (actPaths adjF ps a).deact := by
  induction ps generalizing a with
  | nil => exact hInv
  | cons p ps ih =>
    rcases p with ⟨d, _ | b⟩
    · rw [actPaths]
      exact ih _ hInv
    · rw [actPaths]
      exact ih _ (actNode_inv _ _ _ hInv)

/-! ## Characterization of the active set after a rebuild -/

theorem mem_rebuildAct_best (st : NetState) (s : Nat) (x : Link) :
    x ∈ (rebuildAct st s).best ↔ ActivatedIn (linksOf st) (pathsOf st s) x := by
  unfold rebuildAct
  rw [actPaths_mem_best]
  simp

theorem mem_rebuildAct_deact (st : NetState) (s : Nat) (x : Link) :
    x ∈ (rebuildAct st s).deact ↔
      NonBestIn (linksOf st) (pathsOf st s) x ∧
        ¬ ActivatedIn (linksOf st) (pathsOf st s) x := by
  constructor
  · intro hx
    constructor
    · rcases actPaths_deact_sub _ _ _ _ hx with h2 | h2
      · simp at h2
      · exact h2
    · intro hact
      have hb : x ∈ (rebuildAct st s).best := (mem_rebuildAct_best st s x).2 hact
      exact actPaths_inv _ _ _ (by simp) x hb hx
  · rintro ⟨hnb, hna⟩
    rcases actPaths_nonbest_deact (linksOf st) (pathsOf st s) ⟨st.active, [], []⟩ x
        (by simp) hnb with h2 | h2
    · exact h2
    · exact absurd ((mem_rebuildAct_best st s x).1 h2) hna

theorem mem_rebuildFrom_active (st : NetState) (s : Nat) (x : Link) :
    x ∈ (rebuildFrom st s).active ↔
      ActivatedIn (linksOf st) (pathsOf st s) x ∨
        (x ∈ st.active ∧ ¬ NonBestIn (linksOf st) (pathsOf st s) x) := by
  show x ∈ (rebuildAct st s).act.filter (fun l => !(decide (l ∈ (rebuildAct st s).deact))) ↔ _
  rw [List.mem_filter]
  have hact : x ∈ (rebuildAct st s).act ↔
      x ∈ st.active ∨ ActivatedIn (linksOf st) (pathsOf st s) x := by
    unfold rebuildAct
    rw [actPaths_mem_act]
  rw [hact]
  have hdeact := mem_rebuildAct_deact st s x
  constructor
  · rintro ⟨h1, h2⟩
    simp only [Bool.not_eq_true', decide_eq_false_iff_not] at h2
    rw [hdeact] at h2
    push_neg at h2
    rcases h1 with h1 | h1
    · by_cases ha : ActivatedIn (linksOf st) (pathsOf st s) x
      · exact Or.inl ha
      · exact Or.inr ⟨h1, fun hnb => ha (h2 hnb)⟩
    · exact Or.inl h1
  · rintro (h1 | ⟨h1, h2⟩)
    · refine ⟨Or.inr h1, ?_⟩
      simp only [Bool.not_eq_true', decide_eq_false_iff_not]
      rw [hdeact]
      rintro ⟨_, hna⟩
      exact hna h1
    · refine ⟨Or.inl h1, ?_⟩
      simp only [Bool.not_eq_true', decide_eq_false_iff_not]
      rw [hdeact]
      rintro ⟨hnb, _⟩
      exact h2 hnb

theorem ActivatedIn_reverse (adjF : Nat → List Link) (ps : List (Nat × Option Nat)) (x : Link)
    (h : ActivatedIn adjF ps x) : ActivatedIn adjF ps x.reverse := by
  rcases h with ⟨d, b, l0, h1, h2, h3, h4⟩
  refine ⟨d, b, l0, h1, h2, h3, ?_⟩
  rcases h4 with h5 | h5
  · exact Or.inr (by rw [h5])
  · exact Or.inl (by rw [h5, Link.reverse_reverse])

theorem NonBestIn_reverse (adjF : Nat → List Link) (ps : List (Nat × Option Nat)) (x : Link)
    (h : NonBestIn adjF ps x) : NonBestIn adjF ps x.reverse := by
  rcases h with ⟨d, b, l0, h1, h2, h3, h4⟩
  refine ⟨d, b, l0, h1, h2, h3, ?_⟩
  rcases h4 with h5 | h5
  · exact Or.inr (by rw [h5])
  · exact Or.inl (by rw [h5, Link.reverse_reverse])

/-! ## C2: the symmetry invariant -/

/-- C2: after every execution of `_rebuild_spanning_tree` (from any start
switch, on any state whose active set is closed under link reversal, as
every state produced by this controller is), every link's active flag
equals its reverse link's active flag: activation and deactivation are
applied to both directions of a link pair together. -/
theorem rebuild_active_symmetric (st : NetState) (s : Nat)
    (h : ∀ l ∈ st.active, l.reverse ∈ st.active) :
    ∀ l : Link, l ∈ (rebuildFrom st s).active ↔ l.reverse ∈ (rebuildFrom st s).active := by
  have key : ∀ x : Link, x ∈ (rebuildFrom st s).active → x.reverse ∈ (rebuildFrom st s).active := by
    intro x hx
    rw [mem_rebuildFrom_active] at hx ⊢
    rcases hx with h1 | ⟨h1, h2⟩
    · exact Or.inl (ActivatedIn_reverse _ _ _ h1)
    · refine Or.inr ⟨h x h1, fun hnb => ?_⟩
      have := NonBestIn_reverse _ _ _ hnb
      rw [Link.reverse_reverse] at this
      exact h2 this
  intro l
  constructor
  · exact key l
  · intro h2
    have := key l.reverse h2
    rwa [Link.reverse_reverse] at this

theorem rebuild_active_symmetric_witness :
    (∀ l ∈ (NetState.mk [1, 2] [(1, [⟨1, 5, 2, 7⟩]), (2, [⟨2, 7, 1, 5⟩])] [] [] (some 1)).active,
      l.reverse ∈ (NetState.mk [1, 2] [(1, [⟨1, 5, 2, 7⟩]), (2, [⟨2, 7, 1, 5⟩])] [] []
        (some 1)).active) ∧
    (∀ l : Link,
      l ∈ (rebuildFrom (NetState.mk [1, 2] [(1, [⟨1, 5, 2, 7⟩]), (2, [⟨2, 7, 1, 5⟩])] [] []
        (some 1)) 1).active ↔
      l.reverse ∈ (rebuildFrom (NetState.mk [1, 2] [(1, [⟨1, 5, 2, 7⟩]), (2, [⟨2, 7, 1, 5⟩])] [] []
        (some 1)) 1).active) :=
  ⟨by simp, rebuild_active_symmetric
    (NetState.mk [1, 2] [(1, [⟨1, 5, 2, 7⟩]), (2, [⟨2, 7, 1, 5⟩])] [] [] (some 1)) 1 (by simp)⟩

/-! ## C5: idempotence of the rebuild -/

/-- The sequence of flag-setting `activate()` calls the loop performs
(lines 63-64), in order: for every node with a best predecessor, every
link to that predecessor followed by its reverse.  The sequence depends
only on the topology and the best-path table, not on the current flags
or on the accumulated sets. -/
def actSeq (adjF : Nat → List Link) : List (Nat × Option Nat) → List Link
  | [] => []
  | (_, none) :: ps => actSeq adjF ps
  | (d, some b) :: ps =>
    (((adjF d).filter (fun l => decide (l.dst = b))).map (fun l => [l, l.reverse])).flatten ++
      actSeq adjF ps

theorem actNode_act_eq_fold (ls : List Link) (b : Nat) (a : ActState) :
    (actNode ls b a).act =
      ((ls.filter (fun l => decide (l.dst = b))).map (fun l => [l, l.reverse])).flatten.foldl
        (fun acc x => addIfAbsent x acc) a.act := by
  induction ls generalizing a with
  | nil => rfl
  | cons l rest ih =>
    by_cases h : l.dst = b
    · rw [actNode_cons_act l rest b a h, ih]
      rw [List.filter_cons_of_pos (by simp [h])]
      simp
    · rw [List.filter_cons_of_neg (by simp [h])]
      by_cases hg : l ∉ a.best ∧ l.reverse ∉ a.best
      · rw [actNode_cons_deact l rest b a h hg, ih]
      · rw [actNode_cons_skip l rest b a h hg, ih]

theorem actPaths_act_eq_fold (adjF : Nat → List Link) (ps : List (Nat × Option Nat))
    (a : ActState) :
    (actPaths adjF ps a).act =
      (actSeq adjF ps).foldl (fun acc x => addIfAbsent x acc) a.act := by
  induction ps generalizing a with
  | nil => rfl
  | cons p ps ih =>
    rcases p with ⟨d, _ | b⟩
    · rw [actPaths, actSeq, ih]
    · rw [actPaths, actSeq, ih, List.foldl_append, actNode_act_eq_fold]

theorem actNode_bd_indep (ls : List Link) (b : Nat) (c c' : List Link) (bs ds : List Link) :
    (actNode ls b ⟨c, bs, ds⟩).best = (actNode ls b ⟨c', bs, ds⟩).best ∧
      (actNode ls b ⟨c, bs, ds⟩).deact = (actNode ls b ⟨c', bs, ds⟩).deact := by
  induction ls generalizing c c' bs ds with
  | nil => exact ⟨rfl, rfl⟩
  | cons l rest ih =>
    by_cases h : l.dst = b
    · rw [actNode_cons_act l rest b _ h, actNode_cons_act l rest b _ h]
      exact ih _ _ _ _
    · by_cases hg : l ∉ bs ∧ l.reverse ∉ bs
      · rw [actNode_cons_deact l rest b ⟨c, bs, ds⟩ h hg,
          actNode_cons_deact l rest b ⟨c', bs, ds⟩ h hg]
        exact ih _ _ _ _
      · rw [actNode_cons_skip l rest b ⟨c, bs, ds⟩ h hg,
          actNode_cons_skip l rest b ⟨c', bs, ds⟩ h hg]
        exact ih _ _ _ _

theorem actPaths_bd_indep (adjF : Nat → List Link) (ps : List (Nat × Option Nat))
    (c c' : List Link) (bs ds : List Link) :
    (actPaths adjF ps ⟨c, bs, ds⟩).best = (actPaths adjF ps ⟨c', bs, ds⟩).best ∧
      (actPaths adjF ps ⟨c, bs, ds⟩).deact = (actPaths adjF ps ⟨c', bs, ds⟩).deact := by
  induction ps generalizing c c' bs ds with
  | nil => exact ⟨rfl, rfl⟩
  | cons p ps ih =>
    rcases p with ⟨d, _ | b⟩
    · rw [actPaths, actPaths]
      exact ih _ _ _ _
    · rw [actPaths, actPaths]
      have hnode := actNode_bd_indep (adjF d) b c c' bs ds
      have h1 : actNode (adjF d) b ⟨c, bs, ds⟩ =
          ⟨(actNode (adjF d) b ⟨c, bs, ds⟩).act, (actNode (adjF d) b ⟨c, bs, ds⟩).best,
            (actNode (adjF d) b ⟨c, bs, ds⟩).deact⟩ := rfl
      have h2 : actNode (adjF d) b ⟨c', bs, ds⟩ =
          ⟨(actNode (adjF d) b ⟨c', bs, ds⟩).act, (actNode (adjF d) b ⟨c', bs, ds⟩).best,
            (actNode (adjF d) b ⟨c', bs, ds⟩).deact⟩ := rfl
      rw [h1, h2, ← hnode.1, ← hnode.2]
      exact ih _ _ _ _

theorem foldAdd_mem_of_mem {α : Type} [DecidableEq α] (seq : List α) (A : List α) (y : α)
    (hy : y ∈ A) : y ∈ seq.foldl (fun acc x => addIfAbsent x acc) A := by
  induction seq generalizing A with
  | nil => exact hy
  | cons z zs ih =>
    exact ih _ (by rw [mem_addIfAbsent]; exact Or.inr hy)

theorem foldAdd_mem_of_mem_seq {α : Type} [DecidableEq α] (seq : List α) (A : List α) (y : α)
    (hy : y ∈ seq) : y ∈ seq.foldl (fun acc x => addIfAbsent x acc) A := by
  induction seq generalizing A with
  | nil => simp at hy
  | cons z zs ih =>
    rcases List.mem_cons.1 hy with h2 | h2
    · subst h2
      exact foldAdd_mem_of_mem zs _ y (by rw [mem_addIfAbsent]; exact Or.inl rfl)
    · exact ih _ h2

theorem foldAdd_eq_of_subset {α : Type} [DecidableEq α] (seq : List α) (A : List α)
    (h : ∀ x ∈ seq, x ∈ A) : seq.foldl (fun acc x => addIfAbsent x acc) A = A := by
  induction seq with
  | nil => rfl
  | cons z zs ih =>
    have hz : z ∈ A := h z (List.mem_cons_self _ _)
    show zs.foldl (fun acc x => addIfAbsent x acc) (addIfAbsent z A) = A
    rw [addIfAbsent_of_mem z A hz]
    exact ih (fun x hx => h x (List.mem_cons_of_mem _ hx))

theorem mem_actSeq (adjF : Nat → List Link) (ps : List (Nat × Option Nat)) (x : Link) :
    x ∈ actSeq adjF ps ↔ ActivatedIn adjF ps x := by
  induction ps with
  | nil =>
    rw [actSeq]
    simp [ActivatedIn_nil]
  | cons p ps ih =>
    rcases p with ⟨d, _ | b⟩
    · rw [actSeq, ih, ActivatedIn_cons_none]
    · rw [actSeq, ActivatedIn_cons_some, List.mem_append, ih]
      constructor
      · rintro (h1 | h1)
        · rcases List.mem_flatten.1 h1 with ⟨grp, hgrp, hx⟩
          rcases List.mem_map.1 hgrp with ⟨l0, hl0, h3⟩
          subst h3
          have h4 := List.mem_filter.1 hl0
          simp only [decide_eq_true_eq] at h4
          refine Or.inl ⟨l0, h4.1, h4.2, ?_⟩
          simp at hx
          tauto
        · exact Or.inr h1
      · rintro (⟨l0, h1, h2, h3⟩ | h1)
        · refine Or.inl (List.mem_flatten.2 ⟨[l0, l0.reverse], ?_, ?_⟩)
          · exact List.mem_map.2 ⟨l0, List.mem_filter.2 ⟨h1, by simp [h2]⟩, rfl⟩
          · simp
            tauto
        · exact Or.inr h1

/-- C5: running `_rebuild_spanning_tree` twice in a row from the same
start switch, with no topology mutation in between, leaves every link's
active flag after the second run identical to its value after the first
run: the second rebuild returns exactly the state the first one
produced.  (Stated over `rebuildFrom`, the rebuild with its start
resolved; the first conjunct records that `_rebuild_spanning_tree`
invoked with that start is exactly this computation.) -/
theorem rebuild_idempotent (st : NetState) (s : Nat) :
    rebuild st (some s) = Except.ok (rebuildFrom st s) ∧
      rebuildFrom (rebuildFrom st s) s = rebuildFrom st s := by
  refine ⟨rfl, ?_⟩
  have hlinks : linksOf (rebuildFrom st s) = linksOf st := rfl
  have hpaths : pathsOf (rebuildFrom st s) s = pathsOf st s := rfl
  -- notation for the two runs
  set L := linksOf st with hL
  set P := pathsOf st s with hP
  have hrun1 : (rebuildFrom st s).active =
      (actPaths L P ⟨st.active, [], []⟩).act.filter
        (fun l => !(decide (l ∈ (actPaths L P ⟨st.active, [], []⟩).deact))) := rfl
  have hrun2 : (rebuildFrom (rebuildFrom st s) s).active =
      (actPaths L P ⟨(rebuildFrom st s).active, [], []⟩).act.filter
        (fun l => !(decide (l ∈ (actPaths L P ⟨(rebuildFrom st s).active, [], []⟩).deact))) := rfl
  have hdeq : (actPaths L P ⟨(rebuildFrom st s).active, [], []⟩).deact =
      (actPaths L P ⟨st.active, [], []⟩).deact :=
    (actPaths_bd_indep L P (rebuildFrom st s).active st.active [] []).2
  -- every link of the activation sequence is already active after run 1
  have hseq : ∀ x ∈ actSeq L P, x ∈ (rebuildFrom st s).active := by
    intro x hx
    rw [hrun1, List.mem_filter]
    constructor
    · rw [actPaths_act_eq_fold]
      exact foldAdd_mem_of_mem_seq _ _ _ hx
    · have hbest : x ∈ (actPaths L P ⟨st.active, [], []⟩).best := by
        rw [actPaths_mem_best]
        exact Or.inr ((mem_actSeq L P x).1 hx)
      have hninv := actPaths_inv L P ⟨st.active, [], []⟩ (by simp) x hbest
      simp only [Bool.not_eq_true', decide_eq_false_iff_not]
      exact hninv
  -- hence the second run's accumulated active list is run 1's list
  have hact2 : (actPaths L P ⟨(rebuildFrom st s).active, [], []⟩).act =
      (rebuildFrom st s).active := by
    rw [actPaths_act_eq_fold]
    exact foldAdd_eq_of_subset _ _ hseq
  -- and the second filter strips nothing
  have hfilter : (rebuildFrom st s).active.filter
      (fun l => !(decide (l ∈ (actPaths L P ⟨st.active, [], []⟩).deact))) =
      (rebuildFrom st s).active := by
    apply List.filter_eq_self.2
    intro x hx
    rw [hrun1, List.mem_filter] at hx
    exact hx.2
  have hactive : (rebuildFrom (rebuildFrom st s) s).active = (rebuildFrom st s).active := by
    rw [hrun2, hdeq, hact2, hfilter]
  -- all other fields are untouched by a rebuild, so the states agree
  have heta : rebuildFrom (rebuildFrom st s) s =
      NetState.mk (rebuildFrom st s).switches (rebuildFrom st s).adj
        (rebuildFrom (rebuildFrom st s) s).active (rebuildFrom st s).tables
        (rebuildFrom st s).root := rfl
  rw [heta, hactive]

/-! ## C8: root is the minimum observed endpoint -/

/-- The minimum of a list of dpids, none for the empty list. -/
def listMin : List Nat → Option Nat
  | [] => none
  | x :: xs =>
    match listMin xs with
    | none => some x
    | some y => some (min x y)

/-- Combine two optional minima. -/
def mergeMin : Option Nat → Option Nat → Option Nat
  | none, m => m
  | some a, none => some a
  | some a, some b => some (min a b)

theorem mergeMin_none_right (a : Option Nat) : mergeMin a none = a := by
  cases a <;> rfl

theorem mergeMin_assoc (a b c : Option Nat) :
    mergeMin (mergeMin a b) c = mergeMin a (mergeMin b c) := by
  cases a <;> cases b <;> cases c <;> simp [mergeMin] <;> omega

theorem listMin_cons (x : Nat) (xs : List Nat) :
    listMin (x :: xs) = mergeMin (some x) (listMin xs) := by
  rw [listMin]
  cases listMin xs <;> rfl

theorem listMin_append (xs ys : List Nat) :
    listMin (xs ++ ys) = mergeMin (listMin xs) (listMin ys) := by
  induction xs with
  | nil => rfl
  | cons x xs ih =>
    rw [List.cons_append, listMin_cons, ih, listMin_cons, mergeMin_assoc]

theorem handleConnect_root (st : NetState) (d : Nat) : (handleConnect st d).root = st.root := by
  unfold handleConnect
  split <;> rfl

theorem addLink_root (st : NetState) (l lp r rp : Nat) :
    (addLink st l lp r rp).root = st.root := by
  unfold addLink
  split <;> rfl


theorem rootUpdate_eq (o : Option Nat) (l r : Nat) :
    rootUpdate o l r = mergeMin o (some (min l r)) := by
  cases o with
  | none =>
    show (if r < l then some r else some l) = some (min l r)
    split_ifs with h <;> simp <;> omega
  | some rt =>
    by_cases h1 : l < rt
    · have hs : rootUpdate (some rt) l r = if r < l then some r else some l := by
        simp only [rootUpdate]
        rw [if_pos h1]
      rw [hs]
      show _ = some (min rt (min l r))
      split_ifs with h2 <;> simp <;> omega
    · have hs : rootUpdate (some rt) l r = if r < rt then some r else some rt := by
        simp only [rootUpdate]
        rw [if_neg h1]
      rw [hs]
      show _ = some (min rt (min l r))
      split_ifs with h2 <;> simp <;> omega

theorem step_root_success (st : NetState) (l lp r rp : Nat)
    (hl : l ∈ st.switches) (hr : r ∈ st.switches) :
    (step st (Event.linkDiscovery l lp r rp)).root =
      mergeMin st.root (some (min l r)) := by
  simp only [step, handleLinkDiscovery, decide_eq_true_eq, hl, hr, if_true, addLink_root,
    rootUpdate_eq]
  cases hst : st.root with
  | none => simp [rebuild, mergeMin, rebuildFrom_root]
  | some rt => simp [rebuild, mergeMin, rebuildFrom_root]

theorem step_root_failure (st : NetState) (l lp r rp : Nat)
    (h : l ∉ st.switches ∨ r ∉ st.switches) :
    step st (Event.linkDiscovery l lp r rp) = st :=
  (linkDiscovery_unknown_endpoint st l lp r rp h).2

theorem runFrom_root (es : List Event) (st : NetState) :
    (es.foldl step st).root = mergeMin st.root (listMin (observedEndpointsAux st es)) := by
  induction es generalizing st with
  | nil =>
    rw [observedEndpointsAux]
    rw [listMin, mergeMin_none_right]
    rfl
  | cons e es ih =>
    rcases e with d | ⟨l, lp, r, rp⟩
    · rw [List.foldl_cons, ih]
      have hobs : observedEndpointsAux st (Event.connect d :: es) =
          observedEndpointsAux (step st (Event.connect d)) es := by
        rw [observedEndpointsAux]
        rfl
      rw [hobs]
      have h2 : (step st (Event.connect d)).root = st.root := handleConnect_root st d
      rw [h2]
    · by_cases hl : l ∈ st.switches
      · by_cases hr : r ∈ st.switches
        · rw [List.foldl_cons, ih]
          have hobs : observedEndpointsAux st (Event.linkDiscovery l lp r rp :: es) =
              [l, r] ++ observedEndpointsAux (step st (Event.linkDiscovery l lp r rp)) es := by
            rw [observedEndpointsAux]
            rw [if_pos (by simp [hl, hr])]
          rw [hobs, listMin_append, step_root_success st l lp r rp hl hr]
          rw [mergeMin_assoc]
          have h3 : listMin [l, r] = some (min l r) := rfl
          rw [h3]
        · have hfail := step_root_failure st l lp r rp (Or.inr hr)
          rw [List.foldl_cons, ih]
          have hobs : observedEndpointsAux st (Event.linkDiscovery l lp r rp :: es) =
              observedEndpointsAux (step st (Event.linkDiscovery l lp r rp)) es := by
            rw [observedEndpointsAux]
            rw [if_neg (by simp [hr])]
            rfl
          rw [hobs, hfail]
      · have hfail := step_root_failure st l lp r rp (Or.inl hl)
        rw [List.foldl_cons, ih]
        have hobs : observedEndpointsAux st (Event.linkDiscovery l lp r rp :: es) =
            observedEndpointsAux (step st (Event.linkDiscovery l lp r rp)) es := by
          rw [observedEndpointsAux]
          rw [if_neg (by simp [hl])]
          rfl
        rw [hobs, hfail]

/-- C8: after any sequence of events, the root is the switch with the
minimum identifier among all endpoints of successfully processed
link-discovery events (none while no link has been discovered): the root
is set by the very first successful event, and is never unset nor
replaced by a larger identifier afterward, since the minimum of a trace
only ever decreases as events are appended. -/
theorem run_root_is_min_observed (es : List Event) :
    (run es).root = listMin (observedEndpointsAux initState es) := by
  rw [run, runFrom_root]
  rfl

/-! ## The reachability sweep computes the connected component -/

/-- Transitive connectivity by following links of the adjacency `adjF`
(the sweep of lines 34-45 follows all links regardless of their active
flag; instantiated with `activeLinksOf` it describes propagation along
active links only). -/
inductive ReachVia (adjF : Nat → List Link) (s : Nat) : Nat → Prop where
  | refl : ReachVia adjF s s
  | step (x : Nat) (l : Link) : ReachVia adjF s x → l ∈ adjF x → ReachVia adjF s l.dst

theorem lookup_mem {α β : Type} [DecidableEq α] (a : α) (xs : List (α × β)) (b : β)
    (h : xs.lookup a = some b) : (a, b) ∈ xs := by
  induction xs with
  | nil => simp [List.lookup] at h
  | cons e es ih =>
    rcases e with ⟨k, v⟩
    by_cases hk : a = k
    · subst hk
      simp [List.lookup] at h
      subst h
      exact List.mem_cons_self _ _
    · have hbeq : (a == k) = false := by
        simp [hk]
      simp [List.lookup, hbeq] at h
      exact List.mem_cons_of_mem _ (ih h)

theorem linksOf_mem_adj (st : NetState) (d : Nat) (l : Link) (hl : l ∈ linksOf st d) :
    ∃ e, e ∈ st.adj ∧ e.1 = d ∧ l ∈ e.2 := by
  unfold linksOf at hl
  cases hlk : st.adj.lookup d with
  | none =>
    rw [hlk] at hl
    simp at hl
  | some ls =>
    rw [hlk] at hl
    simp at hl
    exact ⟨(d, ls), lookup_mem d st.adj ls hlk, rfl, hl⟩

theorem linksOf_src (st : NetState) (hwf : ∀ e ∈ st.adj, ∀ l ∈ e.2, l.src = e.1)
    (d : Nat) (l : Link) (hl : l ∈ linksOf st d) : l.src = d := by
  rcases linksOf_mem_adj st d l hl with ⟨e, he, hed, hle⟩
  rw [hwf e he l hle, hed]

theorem sweepAux_nil (adjF : Nat → List Link) (U done : List Nat) :
    sweepAux adjF U done [] = done := by
  rw [sweepAux]

theorem sweepAux_cons_mem (adjF : Nat → List Link) (U done : List Nat) (s : Nat)
    (rest : List Nat) (hU : s ∈ U) :
    sweepAux adjF U done (s :: rest) = sweepAux adjF U (done ++ [s])
      (rest ++ ((adjF s).filter (fun l => !(decide (l.dst ∈ done ++ [s])))).map
        (fun l => l.dst)) := by
  rw [sweepAux]
  rw [dif_pos hU]

theorem sweepAux_cons_bail (adjF : Nat → List Link) (U done : List Nat) (s : Nat)
    (rest : List Nat) (hU : s ∉ U) :
    sweepAux adjF U done (s :: rest) = done ++ (s :: rest) := by
  rw [sweepAux]
  rw [dif_neg hU]

theorem sweepAux_sound (adjF : Nat → List Link) (U : List Nat) (s : Nat) :
    ∀ done pending, (∀ x ∈ done, ReachVia adjF s x) → (∀ x ∈ pending, ReachVia adjF s x) →
      ∀ x ∈ sweepAux adjF U done pending, ReachVia adjF s x := by
  intro done pending
  induction done, pending using sweepAux.induct adjF U with
  | case1 done =>
    intro hdone _ x hx
    rw [sweepAux_nil] at hx
    exact hdone x hx
  | case2 done t rest hU d2 fr ih =>
    intro hdone hpend x hx
    rw [sweepAux_cons_mem adjF U done t rest hU] at hx
    refine ih ?_ ?_ x hx
    · intro y hy
      rcases List.mem_append.1 hy with hy | hy
      · exact hdone y hy
      · simp at hy
        subst hy
        exact hpend y (List.mem_cons_self _ _)
    · intro y hy
      rcases List.mem_append.1 hy with hy | hy
      · exact hpend y (List.mem_cons_of_mem _ hy)
      · rcases List.mem_map.1 hy with ⟨l, hl, h2⟩
        subst h2
        have hlt := List.mem_of_mem_filter hl
        exact ReachVia.step t l (hpend t (List.mem_cons_self _ _)) hlt
  | case3 done t rest hU =>
    intro hdone hpend x hx
    rw [sweepAux_cons_bail adjF U done t rest hU] at hx
    rcases List.mem_append.1 hx with hx | hx
    · exact hdone x hx
    · exact hpend x hx

theorem sweepAux_grow (adjF : Nat → List Link) (U : List Nat) :
    ∀ done pending, ∀ x, (x ∈ done ∨ x ∈ pending) → x ∈ sweepAux adjF U done pending := by
  intro done pending
  induction done, pending using sweepAux.induct adjF U with
  | case1 done =>
    intro x hx
    rw [sweepAux_nil]
    rcases hx with hx | hx
    · exact hx
    · simp at hx
  | case2 done t rest hU d2 fr ih =>
    intro x hx
    rw [sweepAux_cons_mem adjF U done t rest hU]
    refine ih x ?_
    rcases hx with hx | hx
    · exact Or.inl (List.mem_append_left _ hx)
    · rcases List.mem_cons.1 hx with h2 | h2
      · subst h2
        exact Or.inl (List.mem_append_right _ (by simp))
      · exact Or.inr (List.mem_append_left _ h2)
  | case3 done t rest hU =>
    intro x hx
    rw [sweepAux_cons_bail adjF U done t rest hU]
    rcases hx with hx | hx
    · exact List.mem_append_left _ hx
    · exact List.mem_append_right _ hx

theorem sweepAux_closed (adjF : Nat → List Link) (U : List Nat)
    (hadjU : ∀ x l, l ∈ adjF x → l.dst ∈ U) :
    ∀ done pending, (∀ x ∈ pending, x ∈ U) →
      (∀ x ∈ done, ∀ l ∈ adjF x, l.dst ∈ done ∨ l.dst ∈ pending) →
      ∀ x ∈ sweepAux adjF U done pending, ∀ l ∈ adjF x,
        l.dst ∈ sweepAux adjF U done pending := by
  intro done pending
  induction done, pending using sweepAux.induct adjF U with
  | case1 done =>
    intro _ hinv x hx l hl
    rw [sweepAux_nil] at hx ⊢
    rcases hinv x hx l hl with h2 | h2
    · exact h2
    · simp at h2
  | case2 done t rest hU d2 fr ih =>
    intro hpU hinv
    rw [sweepAux_cons_mem adjF U done t rest hU]
    refine ih ?_ ?_
    · intro y hy
      rcases List.mem_append.1 hy with hy | hy
      · exact hpU y (List.mem_cons_of_mem _ hy)
      · rcases List.mem_map.1 hy with ⟨l, hl, h2⟩
        subst h2
        exact hadjU t l (List.mem_of_mem_filter hl)
    · intro y hy l hl
      rcases List.mem_append.1 hy with hy | hy
      · rcases hinv y hy l hl with h2 | h2
        · exact Or.inl (List.mem_append_left _ h2)
        · rcases List.mem_cons.1 h2 with h3 | h3
          · exact Or.inl (List.mem_append_right _ (by simp [h3]))
          · exact Or.inr (List.mem_append_left _ h3)
      · simp at hy
        subst hy
        by_cases h2 : l.dst ∈ done ++ [y]
        · exact Or.inl h2
        · refine Or.inr (List.mem_append_right _ ?_)
          refine List.mem_map.2 ⟨l, ?_, rfl⟩
          refine List.mem_filter.2 ⟨hl, ?_⟩
          rw [Bool.not_eq_true', decide_eq_false_iff_not]
          exact h2
  | case3 done t rest hU =>
    intro hpU _
    exact absurd (hpU t (List.mem_cons_self _ _)) hU

theorem sweepAux_complete (adjF : Nat → List Link) (U : List Nat) (s : Nat)
    (hadjU : ∀ x l, l ∈ adjF x → l.dst ∈ U) (hsU : s ∈ U) :
    ∀ x, ReachVia adjF s x → x ∈ sweepAux adjF U [] [s] := by
  intro x hx
  induction hx with
  | refl => exact sweepAux_grow adjF U [] [s] s (Or.inr (by simp))
  | step y l hy hl ih =>
    refine sweepAux_closed adjF U hadjU [] [s] ?_ ?_ y ih l hl
    · intro z hz
      simp at hz
      subst hz
      exact hsU
    · intro z hz
      simp at hz

theorem mem_dedupKeepFirst {α : Type} [DecidableEq α] (l : List α) (x : α) :
    x ∈ dedupKeepFirst l ↔ x ∈ l := by
  induction l using dedupKeepFirst.induct with
  | case1 => rw [dedupKeepFirst]
  | case2 y ys ih =>
    rw [dedupKeepFirst]
    constructor
    · intro h
      rcases List.mem_cons.1 h with h2 | h2
      · subst h2
        exact List.mem_cons_self _ _
      · exact List.mem_cons_of_mem _ (List.mem_of_mem_filter (ih.1 h2))
    · intro h
      rcases List.mem_cons.1 h with h2 | h2
      · subst h2
        exact List.mem_cons_self _ _
      · by_cases h3 : x = y
        · subst h3
          exact List.mem_cons_self _ _
        · refine List.mem_cons_of_mem _ (ih.2 ?_)
          exact List.mem_filter.2 ⟨h2, by simpa using h3⟩

theorem nodup_dedupKeepFirst {α : Type} [DecidableEq α] (l : List α) :
    (dedupKeepFirst l).Nodup := by
  induction l using dedupKeepFirst.induct with
  | case1 =>
    rw [dedupKeepFirst]
    exact List.nodup_nil
  | case2 y ys ih =>
    rw [dedupKeepFirst]
    refine List.nodup_cons.2 ⟨?_, ih⟩
    intro hmem
    have h2 := (mem_dedupKeepFirst _ _).1 hmem
    have h3 := (List.mem_filter.1 h2).2
    simp at h3

theorem universeOf_dst (st : NetState) (x : Nat) (l : Link) (hl : l ∈ linksOf st x) :
    l.dst ∈ universeOf st := by
  rcases linksOf_mem_adj st x l hl with ⟨e, he, _, hle⟩
  unfold universeOf
  refine List.mem_append_right _ (List.mem_map.2 ⟨l, ?_, rfl⟩)
  unfold allLinks
  refine List.mem_flatten.2 ⟨e.2, List.mem_map.2 ⟨e, he, rfl⟩, hle⟩

/-- The scope of a rebuild is exactly the set of switches transitively
connected to the start switch by known links. -/
theorem mem_reachList (st : NetState) (s x : Nat) :
    x ∈ reachList st s ↔ ReachVia (linksOf st) s x := by
  unfold reachList
  rw [mem_dedupKeepFirst]
  constructor
  · intro h
    refine sweepAux_sound (linksOf st) (s :: universeOf st) s [] [s] ?_ ?_ x h
    · intro y hy
      simp at hy
    · intro y hy
      simp at hy
      subst hy
      exact ReachVia.refl
  · intro h
    refine sweepAux_complete (linksOf st) (s :: universeOf st) s ?_ (by simp) x h
    intro y l hl
    exact List.mem_cons_of_mem _ (universeOf_dst st y l hl)

/-! ## C9: switches outside the start's component are untouched -/

theorem pathsOf_mem_fst (st : NetState) (s : Nat) (e : Nat × Option Nat)
    (he : e ∈ pathsOf st s) : e.1 ∈ reachList st s := by
  unfold pathsOf find_shortest_paths at he
  rcases List.mem_map.1 he with ⟨d, hd, h2⟩
  subst h2
  exact hd

/-- C9: a rebuild started at switch `s` does not error, and every switch
`d` not transitively connected to `s` by known links is left completely
untouched: the topology, tables and root are unchanged, `d`'s link list
is unchanged, and none of `d`'s links changes its active flag.  (The
hypothesis on `st.adj` states that every link lives in its owning
switch's list, which holds for every state this controller builds.) -/
theorem rebuild_frame (st : NetState) (s d : Nat)
    (hwf : ∀ e ∈ st.adj, ∀ l ∈ e.2, l.src = e.1)
    (hd : ¬ ReachVia (linksOf st) s d) :
    rebuild st (some s) = Except.ok (rebuildFrom st s) ∧
    (rebuildFrom st s).switches = st.switches ∧
    (rebuildFrom st s).adj = st.adj ∧
    (rebuildFrom st s).tables = st.tables ∧
    (rebuildFrom st s).root = st.root ∧
    linksOf (rebuildFrom st s) d = linksOf st d ∧
    ∀ l ∈ linksOf st d, (l ∈ (rebuildFrom st s).active ↔ l ∈ st.active) := by
  refine ⟨rfl, rfl, rfl, rfl, rfl, rfl, ?_⟩
  intro l hl
  have hsrc : l.src = d := linksOf_src st hwf d l hl
  have hnotact : ¬ ActivatedIn (linksOf st) (pathsOf st s) l := by
    rintro ⟨e, b, l0, hmem, hl0, hdst, hll⟩
    have hereach : ReachVia (linksOf st) s e :=
      (mem_reachList st s e).1 (pathsOf_mem_fst st s (e, some b) hmem)
    rcases hll with h2 | h2
    · have : l0.src = e := linksOf_src st hwf e l0 hl0
      rw [h2] at hsrc
      rw [this] at hsrc
      subst hsrc
      exact hd hereach
    · have : l.src = l0.dst := by rw [h2]; rfl
      rw [hsrc] at this
      subst this
      exact hd (ReachVia.step e l0 hereach hl0)
  have hnotnb : ¬ NonBestIn (linksOf st) (pathsOf st s) l := by
    rintro ⟨e, b, l0, hmem, hl0, hdst, hll⟩
    have hereach : ReachVia (linksOf st) s e :=
      (mem_reachList st s e).1 (pathsOf_mem_fst st s (e, some b) hmem)
    rcases hll with h2 | h2
    · have : l0.src = e := linksOf_src st hwf e l0 hl0
      rw [h2] at hsrc
      rw [this] at hsrc
      subst hsrc
      exact hd hereach
    · have : l.src = l0.dst := by rw [h2]; rfl
      rw [hsrc] at this
      subst this
      exact hd (ReachVia.step e l0 hereach hl0)
  rw [mem_rebuildFrom_active]
  constructor
  · rintro (h2 | ⟨h2, _⟩)
    · exact absurd h2 hnotact
    · exact h2
  · intro h2
    exact Or.inr ⟨h2, hnotnb⟩

/-- The unreachable-switch scenario of the spec (section 8): switches 1
and 2 joined by a link pair, switch 4 connected with no discovered
links. -/
def frameState : NetState :=
  NetState.mk [1, 2, 4] [(1, [⟨1, 10, 2, 20⟩]), (2, [⟨2, 20, 1, 10⟩]), (4, [])] [] [] (some 1)

theorem rebuild_frame_witness :
    ((∀ e ∈ frameState.adj, ∀ l ∈ e.2, l.src = e.1) ∧
      ¬ ReachVia (linksOf frameState) 1 4) ∧
    (rebuild frameState (some 1) = Except.ok (rebuildFrom frameState 1) ∧
      (rebuildFrom frameState 1).switches = frameState.switches ∧
      (rebuildFrom frameState 1).adj = frameState.adj ∧
      (rebuildFrom frameState 1).tables = frameState.tables ∧
      (rebuildFrom frameState 1).root = frameState.root ∧
      linksOf (rebuildFrom frameState 1) 4 = linksOf frameState 4 ∧
      ∀ l ∈ linksOf frameState 4,
        (l ∈ (rebuildFrom frameState 1).active ↔ l ∈ frameState.active)) := by
  have key : ∀ x, ReachVia (linksOf frameState) 1 x → x = 1 ∨ x = 2 := by
    intro x hx
    induction hx with
    | refl => exact Or.inl rfl
    | step y l hy hl ih =>
      rcases ih with h1 | h1
      · subst h1
        have h2 : linksOf frameState 1 = [⟨1, 10, 2, 20⟩] := rfl
        rw [h2] at hl
        simp at hl
        subst hl
        exact Or.inr rfl
      · subst h1
        have h2 : linksOf frameState 2 = [⟨2, 20, 1, 10⟩] := rfl
        rw [h2] at hl
        simp at hl
        subst hl
        exact Or.inl rfl
  have hNR : ¬ ReachVia (linksOf frameState) 1 4 := by
    intro h
    rcases key 4 h with h1 | h1 <;> simp at h1
  exact ⟨⟨by decide, hNR⟩, rebuild_frame frameState 1 4 (by decide) hNR⟩

/-! ## MAC teaching: tables, tree certificates, descendants -/

theorem lookup_append (a : Nat × Nat) (xs ys : List ((Nat × Nat) × Nat)) :
    (xs ++ ys).lookup a =
      match xs.lookup a with
      | some b => some b
      | none => ys.lookup a := by
  induction xs with
  | nil => rfl
  | cons e es ih =>
    rcases e with ⟨k, v⟩
    by_cases hk : a = k
    · subst hk
      rw [List.cons_append, List.lookup, List.lookup]
      simp
    · have hbeq : (a == k) = false := by simp [hk]
      rw [List.cons_append, List.lookup, List.lookup, hbeq]
      exact ih

theorem lookup_filter_self (t : List ((Nat × Nat) × Nat)) (k : Nat × Nat) :
    (t.filter (fun e => decide (e.1 ≠ k))).lookup k = none := by
  induction t with
  | nil => rfl
  | cons e es ih =>
    by_cases he : e.1 = k
    · rw [List.filter_cons_of_neg (by simp [he])]
      exact ih
    · rw [List.filter_cons_of_pos (by simp [he])]
      rcases e with ⟨k2, v⟩
      rw [List.lookup]
      have hbeq : (k == k2) = false := by
        simp at he
        simp [Ne.symm he]
      rw [hbeq]
      exact ih

theorem lookup_filter_ne (t : List ((Nat × Nat) × Nat)) (k k2 : Nat × Nat) (h : k2 ≠ k) :
    (t.filter (fun e => decide (e.1 ≠ k))).lookup k2 = t.lookup k2 := by
  induction t with
  | nil => rfl
  | cons e es ih =>
    rcases e with ⟨ke, v⟩
    by_cases he : ke = k
    · subst he
      rw [List.filter_cons_of_neg (by simp)]
      rw [List.lookup]
      have hbeq : (k2 == ke) = false := by simp [h]
      rw [hbeq]
      exact ih
    · rw [List.filter_cons_of_pos (by simp [he])]
      rw [List.lookup, List.lookup]
      cases hbeq : k2 == ke with
      | true => rfl
      | false => exact ih

theorem tableGet_set_self (t : List ((Nat × Nat) × Nat)) (d mac p : Nat) :
    tableGet (tableSet t d mac p) d mac = some p := by
  unfold tableGet tableSet
  rw [lookup_append, lookup_filter_self]
  simp [List.lookup]

theorem tableGet_set_other (t : List ((Nat × Nat) × Nat)) (d mac p d2 m2 : Nat)
    (h : (d2, m2) ≠ (d, mac)) :
    tableGet (tableSet t d mac p) d2 m2 = tableGet t d2 m2 := by
  unfold tableGet tableSet
  rw [lookup_append, lookup_filter_ne _ _ _ h]
  cases hlk : t.lookup (d2, m2) with
  | some v => rfl
  | none =>
    show List.lookup (d2, m2) [((d, mac), p)] = none
    rw [List.lookup]
    have hbeq : ((d2, m2) == (d, mac)) = false := by simp [h]
    rw [hbeq]
    rfl

/-- The switches of a rooted component certificate: the root `S` plus all
switches that have a recorded parent link. -/
def compOf (S : Nat) (parL : List (Nat × Link)) : List Nat := S :: parL.map Prod.fst

/-- The depth certificate: the recorded depth of a switch (0 if absent). -/
def rankOf (rankL : List (Nat × Nat)) (x : Nat) : Nat := (rankL.lookup x).getD 0

/-- A certificate that the active links around `S` form a tree rooted at
`S`: `parL` records, for every switch of the component except `S`, its
unique parent link (the active link from it toward `S`), and `rankL`
records depths that strictly decrease along parent links.  The clauses
state: parent links are real active links pointing into the component
with decreasing depth; every active link of a component switch is either
that switch's parent link or the reverse of its target's parent link
(so the active edges are exactly the tree edges), with its reverse
present and active; and each component switch's active links carry
pairwise-distinct local ports (ports identify links uniquely, as
`add_link` guarantees). -/
def TreeAt (st : NetState) (S : Nat) (parL : List (Nat × Link))
    (rankL : List (Nat × Nat)) : Prop :=
  (parL.map Prod.fst).Nodup ∧
  S ∉ parL.map Prod.fst ∧
  (∀ e ∈ parL, e.2 ∈ linksOf st e.1 ∧ e.2 ∈ st.active ∧ e.2.src = e.1 ∧
    e.2.dst ∈ compOf S parL ∧ rankOf rankL e.2.dst < rankOf rankL e.1) ∧
  (∀ x ∈ compOf S parL, ∀ l ∈ linksOf st x, l ∈ st.active →
    (l.src = x ∧ l.dst ∈ compOf S parL ∧ l.reverse ∈ linksOf st l.dst ∧
      l.reverse ∈ st.active ∧
      (parL.lookup x = some l ∨ parL.lookup l.dst = some l.reverse))) ∧
  (∀ x ∈ compOf S parL, List.Pairwise (fun u v => u.port ≠ v.port) (activeLinksOf st x))

instance decTreeAt (st : NetState) (S : Nat) (parL : List (Nat × Link))
    (rankL : List (Nat × Nat)) : Decidable (TreeAt st S parL rankL) := by
  unfold TreeAt
  exact inferInstance

/-- `Desc parL x y`: following parent links upward from `y` reaches `x`
(`y` lies in the subtree rooted at `x`). -/
inductive Desc (parL : List (Nat × Link)) : Nat → Nat → Prop where
  | refl (x : Nat) : Desc parL x x
  | step (x y : Nat) (l : Link) : parL.lookup y = some l → Desc parL x l.dst → Desc parL x y

theorem lookup_eq_of_mem_nodup {α β : Type} [DecidableEq α] (xs : List (α × β)) (a : α) (b : β)
    (hnd : (xs.map Prod.fst).Nodup) (hmem : (a, b) ∈ xs) : xs.lookup a = some b := by
  induction xs with
  | nil => simp at hmem
  | cons e es ih =>
    rcases e with ⟨k, v⟩
    have hnd2 : (k :: es.map Prod.fst).Nodup := by simpa using hnd
    have hknot : k ∉ es.map Prod.fst := (List.nodup_cons.1 hnd2).1
    have hnd3 : (es.map Prod.fst).Nodup := (List.nodup_cons.1 hnd2).2
    rcases List.mem_cons.1 hmem with h2 | h2
    · rw [Prod.mk.injEq] at h2
      rcases h2 with ⟨h3, h4⟩
      subst h3
      subst h4
      rw [List.lookup]
      simp
    · have hk : a ≠ k := by
        intro h3
        subst h3
        exact hknot (List.mem_map.2 ⟨(a, b), h2, rfl⟩)
      rw [List.lookup]
      have hbeq : (a == k) = false := by simp [hk]
      rw [hbeq]
      exact ih hnd3 h2

theorem lookup_none_of_not_mem {α β : Type} [DecidableEq α] (xs : List (α × β)) (a : α)
    (h : a ∉ xs.map Prod.fst) : xs.lookup a = none := by
  induction xs with
  | nil => rfl
  | cons e es ih =>
    rcases e with ⟨k, v⟩
    have h2 : a ≠ k ∧ a ∉ es.map Prod.fst := by
      constructor
      · intro h3
        apply h
        rw [h3]
        exact List.mem_cons_self _ _
      · intro h3
        exact h (List.mem_cons_of_mem _ h3)
    rw [List.lookup]
    have hbeq : (a == k) = false := by simp [h2.1]
    rw [hbeq]
    exact ih h2.2

theorem desc_rank (parL : List (Nat × Link)) (rankL : List (Nat × Nat))
    (hpar : ∀ e ∈ parL, rankOf rankL e.2.dst < rankOf rankL e.1) (x y : Nat)
    (h : Desc parL x y) : rankOf rankL x ≤ rankOf rankL y := by
  induction h with
  | refl => exact Nat.le_refl _
  | step y l hlook hdesc ih =>
    have hmem := lookup_mem y parL l hlook
    have h3 : rankOf rankL l.dst < rankOf rankL y := hpar (y, l) hmem
    omega

theorem desc_comp (S : Nat) (parL : List (Nat × Link)) (x y : Nat) (hx : x ∈ compOf S parL)
    (h : Desc parL x y) : y ∈ compOf S parL := by
  cases h with
  | refl => exact hx
  | step y l hlook hdesc =>
    have hmem := lookup_mem y parL l hlook
    exact List.mem_cons_of_mem _ (List.mem_map.2 ⟨(y, l), hmem, rfl⟩)

theorem desc_trans (parL : List (Nat × Link)) (x y z : Nat) (h1 : Desc parL x y)
    (h2 : Desc parL y z) : Desc parL x z := by
  induction h2 with
  | refl => exact h1
  | step z l hlook hdesc ih => exact Desc.step x z l hlook ih

theorem desc_split (parL : List (Nat × Link)) (x y : Nat) (h : Desc parL x y) :
    y = x ∨ ∃ c lc, parL.lookup c = some lc ∧ lc.dst = x ∧ Desc parL c y := by
  induction h with
  | refl => exact Or.inl rfl
  | step y l hlook hdesc ih =>
    rcases ih with h2 | ⟨c, lc, h2, h3, h4⟩
    · exact Or.inr ⟨y, l, hlook, h2, Desc.refl y⟩
    · exact Or.inr ⟨c, lc, h2, h3, Desc.step c y l hlook h4⟩

theorem desc_total (parL : List (Nat × Link)) (u v y : Nat) (h1 : Desc parL u y) :
    Desc parL v y → Desc parL u v ∨ Desc parL v u := by
  induction h1 with
  | refl => intro h2; exact Or.inr h2
  | step y l hlook hdesc ih =>
    intro h2
    cases h2 with
    | refl => exact Or.inl (Desc.step u v l hlook hdesc)
    | step y2 l2 hlook2 hdesc2 =>
      rw [hlook] at hlook2
      rw [Option.some.injEq] at hlook2
      subst hlook2
      exact ih hdesc2

theorem desc_siblings (parL : List (Nat × Link)) (rankL : List (Nat × Nat))
    (hpar : ∀ e ∈ parL, rankOf rankL e.2.dst < rankOf rankL e.1) (x c1 c2 y : Nat)
    (l1 l2 : Link) (hc1 : parL.lookup c1 = some l1) (hd1 : l1.dst = x)
    (hc2 : parL.lookup c2 = some l2) (hd2 : l2.dst = x)
    (h1 : Desc parL c1 y) (h2 : Desc parL c2 y) : c1 = c2 := by
  have hr1 : rankOf rankL x < rankOf rankL c1 := by
    have := hpar (c1, l1) (lookup_mem c1 parL l1 hc1)
    rw [hd1] at this
    exact this
  have hr2 : rankOf rankL x < rankOf rankL c2 := by
    have := hpar (c2, l2) (lookup_mem c2 parL l2 hc2)
    rw [hd2] at this
    exact this
  have key : ∀ a b : Nat, ∀ la lb : Link, parL.lookup a = some la → la.dst = x →
      parL.lookup b = some lb → lb.dst = x → Desc parL a b → a = b := by
    intro a b la lb hla hlad hlb hlbd hab
    cases hab with
    | refl => rfl
    | step b l hlook hdesc =>
      rw [hlb] at hlook
      rw [Option.some.injEq] at hlook
      subst hlook
      rw [hlbd] at hdesc
      have := desc_rank parL rankL hpar a x hdesc
      have hra : rankOf rankL x < rankOf rankL a := by
        have := hpar (a, la) (lookup_mem a parL la hla)
        rw [hlad] at this
        exact this
      omega
  rcases desc_total parL c1 c2 y h1 h2 with h3 | h3
  · exact key c1 c2 l1 l2 hc1 hd1 hc2 hd2 h3
  · exact (key c2 c1 l2 l1 hc2 hd2 hc1 hd1 h3).symm

theorem desc_not_up (parL : List (Nat × Link)) (rankL : List (Nat × Nat))
    (hpar : ∀ e ∈ parL, rankOf rankL e.2.dst < rankOf rankL e.1) (x c : Nat) (lc : Link)
    (hc : parL.lookup c = some lc) (hdc : lc.dst = x) : ¬ Desc parL c x := by
  intro h
  have h2 := desc_rank parL rankL hpar c x h
  have h3 : rankOf rankL lc.dst < rankOf rankL c := hpar (c, lc) (lookup_mem c parL lc hc)
  rw [hdc] at h3
  omega

theorem comp_desc (st : NetState) (S : Nat) (parL : List (Nat × Link))
    (rankL : List (Nat × Nat)) (hT : TreeAt st S parL rankL) :
    ∀ x ∈ compOf S parL, Desc parL S x := by
  obtain ⟨hnd, hS, hpar, _, _⟩ := hT
  have key : ∀ n x, rankOf rankL x ≤ n → x ∈ compOf S parL → Desc parL S x := by
    intro n
    induction n with
    | zero =>
      intro x hr hx
      rcases List.mem_cons.1 hx with h2 | h2
      · rw [h2]; exact Desc.refl S
      · rcases List.mem_map.1 h2 with ⟨e, he, h3⟩
        subst h3
        have h4 := hpar e he
        omega
    | succ n ih =>
      intro x hr hx
      rcases List.mem_cons.1 hx with h2 | h2
      · rw [h2]; exact Desc.refl S
      · rcases List.mem_map.1 h2 with ⟨e, he, h3⟩
        subst h3
        have h4 := hpar e he
        have hlook : parL.lookup e.1 = some e.2 := lookup_eq_of_mem_nodup parL e.1 e.2 hnd he
        refine Desc.step S e.1 e.2 hlook (ih e.2.dst ?_ h4.2.2.2.1)
        omega
  intro x hx
  exact key (rankOf rankL x) x (Nat.le_refl _) hx

theorem active_reach_comp (st : NetState) (S : Nat) (parL : List (Nat × Link))
    (rankL : List (Nat × Nat)) (hT : TreeAt st S parL rankL) :
    ∀ x, ReachVia (activeLinksOf st) S x → x ∈ compOf S parL := by
  obtain ⟨hnd, hS, hpar, hcov, hports⟩ := hT
  intro x hx
  induction hx with
  | refl => exact List.mem_cons_self _ _
  | step y l hy hl ih =>
    have h2 := List.mem_filter.1 hl
    have h3 : l ∈ st.active := by
      have := h2.2
      simpa using this
    exact (hcov y ih l h2.1 h3).2.1

/-- The arrival-port discipline of the recursion: the initial call uses a
port that no active link of `S` carries (a host port), and every
recursive call uses the port of the callee's parent link (the reverse of
the traversed link). -/
def GoodArrival (st : NetState) (S : Nat) (parL : List (Nat × Link)) (x a : Nat) : Prop :=
  (x = S ∧ ∀ l ∈ activeLinksOf st S, l.port ≠ a) ∨
  (∃ lp, parL.lookup x = some lp ∧ a = lp.port)

theorem teach_master (st : NetState) (S : Nat) (parL : List (Nat × Link))
    (rankL : List (Nat × Nat)) (mac : Nat) (hT : TreeAt st S parL rankL) (R : Nat)
    (hR : ∀ x ∈ compOf S parL, rankOf rankL x ≤ R) :
    ∀ fuel x a t, x ∈ compOf S parL → GoodArrival st S parL x a →
      R + 1 ≤ fuel + rankOf rankL x →
      ∃ t2, teachAux st fuel x mac a t = some t2 ∧
        (∀ y m, (¬ Desc parL x y ∨ m ≠ mac) → tableGet t2 y m = tableGet t y m) ∧
        (∀ y, Desc parL x y →
          tableGet t2 y mac =
            if y = x then some a else (parL.lookup y).map (fun e => e.port)) := by
  obtain ⟨hnd, hS, hpar, hcov, hports⟩ := hT
  have hparrank : ∀ e ∈ parL, rankOf rankL e.2.dst < rankOf rankL e.1 :=
    fun e he => (hpar e he).2.2.2.2
  intro fuel
  induction fuel with
  | zero =>
    intro x a t hx hga hfb
    exfalso
    have := hR x hx
    omega
  | succ fuel ih =>
    intro x a t hx hga hfb
    have hchild : ∀ l ∈ (linksOf st x).filter
        (fun l => decide (l.port ≠ a) && decide (l ∈ st.active)),
        parL.lookup l.dst = some l.reverse ∧ l.dst ∈ compOf S parL ∧ l.src = x ∧
          rankOf rankL x < rankOf rankL l.dst := by
      intro l hl
      have h2 := List.mem_filter.1 hl
      have hport : l.port ≠ a := by
        have := h2.2
        simp at this
        exact this.1
      have hact : l ∈ st.active := by
        have := h2.2
        simp at this
        exact this.2
      obtain ⟨hsrc, hdc, hrl, hra, hdisj⟩ := hcov x hx l h2.1 hact
      have hlook : parL.lookup l.dst = some l.reverse := by
        rcases hdisj with h3 | h3
        · exfalso
          rcases hga with ⟨hxS, hp⟩ | ⟨lp, hlp, hpa⟩
          · rw [hxS] at h3
            rw [lookup_none_of_not_mem parL S hS] at h3
            exact Option.noConfusion h3
          · rw [hlp] at h3
            rw [Option.some.injEq] at h3
            subst h3
            exact hport hpa.symm
        · exact h3
      refine ⟨hlook, hdc, hsrc, ?_⟩
      have h4 : rankOf rankL l.reverse.dst < rankOf rankL l.dst :=
        hparrank (l.dst, l.reverse) (lookup_mem _ parL _ hlook)
      have h5 : l.reverse.dst = x := by
        show l.src = x
        exact hsrc
      rw [h5] at h4
      exact h4
    have hfold : ∀ (cs : List Link),
        (∀ l ∈ cs, parL.lookup l.dst = some l.reverse ∧ l.dst ∈ compOf S parL ∧ l.src = x ∧
          rankOf rankL x < rankOf rankL l.dst) →
        ∀ t0, ∃ t2,
          cs.foldl (fun acc l => acc.bind
            (fun tb => teachAux st fuel l.dst mac l.reverse.port tb)) (some t0) = some t2 ∧
          (∀ y m, ((∀ l ∈ cs, ¬ Desc parL l.dst y) ∨ m ≠ mac) →
            tableGet t2 y m = tableGet t0 y m) ∧
          (∀ y l, l ∈ cs → Desc parL l.dst y →
            tableGet t2 y mac = (parL.lookup y).map (fun e => e.port)) := by
      intro cs
      induction cs with
      | nil =>
        intro _ t0
        refine ⟨t0, rfl, fun y m _ => rfl, fun y l hl => absurd hl (by simp)⟩
      | cons c cs ihc =>
        intro hcf t0
        have hc := hcf c (List.mem_cons_self _ _)
        have hcall := ih c.dst c.reverse.port t0 hc.2.1 (Or.inr ⟨c.reverse, hc.1, rfl⟩)
          (by have := hc.2.2.2; omega)
        rcases hcall with ⟨t1, hrun, hframe1, hsub1⟩
        rcases ihc (fun l hl => hcf l (List.mem_cons_of_mem _ hl)) t1 with
          ⟨t2, hrun2, hframe2, hsub2⟩
        have huni : ∀ y, Desc parL c.dst y →
            tableGet t1 y mac = (parL.lookup y).map (fun e => e.port) := by
          intro y hdy
          rw [hsub1 y hdy]
          by_cases hyc : y = c.dst
          · rw [if_pos hyc, hyc, hc.1]
            rfl
          · rw [if_neg hyc]
        refine ⟨t2, ?_, ?_, ?_⟩
        · rw [List.foldl_cons]
          have hstep : (Option.bind (some t0)
              (fun tb => teachAux st fuel c.dst mac c.reverse.port tb)) = some t1 := by
            show teachAux st fuel c.dst mac c.reverse.port t0 = some t1
            exact hrun
          rw [hstep]
          exact hrun2
        · intro y m hy
          rcases hy with hy | hy
          · have hy1 : ¬ Desc parL c.dst y := hy c (List.mem_cons_self _ _)
            have hy2 : ∀ l ∈ cs, ¬ Desc parL l.dst y :=
              fun l hl => hy l (List.mem_cons_of_mem _ hl)
            rw [hframe2 y m (Or.inl hy2), hframe1 y m (Or.inl hy1)]
          · rw [hframe2 y m (Or.inr hy), hframe1 y m (Or.inr hy)]
        · intro y l hl hdy
          rcases List.mem_cons.1 hl with h2 | h2
          · subst h2
            by_cases hex : ∃ l2, l2 ∈ cs ∧ Desc parL l2.dst y
            · rcases hex with ⟨l2, hl2, hd2⟩
              exact hsub2 y l2 hl2 hd2
            · push_neg at hex
              rw [hframe2 y mac (Or.inl hex)]
              exact huni y hdy
          · exact hsub2 y l h2 hdy
    rcases hfold ((linksOf st x).filter
        (fun l => decide (l.port ≠ a) && decide (l ∈ st.active))) hchild
        (tableSet t x mac a) with ⟨t2, hrun, hframeF, hsubF⟩
    refine ⟨t2, ?_, ?_, ?_⟩
    · rw [teachAux]
      exact hrun
    · intro y m hy
      rcases hy with hy | hy
      · have hall : ∀ l ∈ (linksOf st x).filter
            (fun l => decide (l.port ≠ a) && decide (l ∈ st.active)),
            ¬ Desc parL l.dst y := by
          intro l hl hdesc
          apply hy
          have hc := hchild l hl
          have hxc : Desc parL x l.dst := by
            refine Desc.step x l.dst l.reverse hc.1 ?_
            have h5 : l.reverse.dst = x := hc.2.2.1
            rw [h5]
            exact Desc.refl x
          exact desc_trans parL x l.dst y hxc hdesc
        have hyx : y ≠ x := by
          intro h2
          rw [h2] at hy
          exact hy (Desc.refl x)
        rw [hframeF y m (Or.inl hall)]
        exact tableGet_set_other t x mac a y m (by simp [hyx])
      · rw [hframeF y m (Or.inr hy)]
        exact tableGet_set_other t x mac a y m (by simp [hy])
    · intro y hdy
      by_cases hyx : y = x
      · subst hyx
        rw [if_pos rfl]
        have hall : ∀ l ∈ (linksOf st y).filter
            (fun l => decide (l.port ≠ a) && decide (l ∈ st.active)),
            ¬ Desc parL l.dst y := by
          intro l hl
          have hc := hchild l hl
          have h5 : l.reverse.dst = y := hc.2.2.1
          refine desc_not_up parL rankL hparrank y l.dst l.reverse hc.1 h5
        rw [hframeF y mac (Or.inl hall)]
        exact tableGet_set_self t y mac a
      · rw [if_neg hyx]
        rcases desc_split parL x y hdy with h2 | ⟨c, lc, hlc, hlcd, hcy⟩
        · exact absurd h2 hyx
        · have hcent := lookup_mem c parL lc hlc
          obtain ⟨hlcl, hlca, hlcs, hlcc, _⟩ := hpar (c, lc) hcent
          have hcComp : c ∈ compOf S parL :=
            List.mem_cons_of_mem _ (List.mem_map.2 ⟨(c, lc), hcent, rfl⟩)
          obtain ⟨_, _, hrevl, hreva, _⟩ := hcov c hcComp lc hlcl hlca
          rw [hlcd] at hrevl
          have hrevport : lc.reverse.port ≠ a := by
            rcases hga with ⟨hxS, hp⟩ | ⟨lp, hlp, hpa⟩
            · refine hp lc.reverse ?_
              rw [← hxS]
              exact List.mem_filter.2 ⟨hrevl, by simp [hreva]⟩
            · have hlpm := lookup_mem x parL lp hlp
              obtain ⟨hlpl, hlpa, hlps, _, hlprank⟩ := hpar (x, lp) hlpm
              by_cases heq : lc.reverse = lp
              · exfalso
                have h6 : lp.dst = c := by
                  rw [← heq]
                  show lc.src = c
                  exact hlcs
                have h7 : rankOf rankL lp.dst < rankOf rankL x := hlprank
                rw [h6] at h7
                have h8 : rankOf rankL lc.dst < rankOf rankL c :=
                  hparrank (c, lc) hcent
                rw [hlcd] at h8
                omega
              · have hmem1 : lc.reverse ∈ activeLinksOf st x :=
                  List.mem_filter.2 ⟨hrevl, by simp [hreva]⟩
                have hmem2 : lp ∈ activeLinksOf st x :=
                  List.mem_filter.2 ⟨hlpl, by simp [hlpa]⟩
                have hpw := hports x hx
                have hsym : Symmetric (fun u v : Link => u.port ≠ v.port) := by
                  intro u v h8
                  exact h8.symm
                have := List.Pairwise.forall hsym hpw hmem1 hmem2 heq
                rw [hpa]
                exact this
          have hF : lc.reverse ∈ (linksOf st x).filter
              (fun l => decide (l.port ≠ a) && decide (l ∈ st.active)) :=
            List.mem_filter.2 ⟨hrevl, by simp [hrevport, hreva]⟩
          have hdcy : Desc parL lc.reverse.dst y := by
            have h5 : lc.reverse.dst = c := hlcs
            rw [h5]
            exact hcy
          exact hsubF y lc.reverse hF hdcy

/-! ## C4: conditional termination of the teaching recursion -/

/-- C4: on every state whose active links form a tree (witnessed by a
parent/depth certificate rooted at the taught switch `S`, with
per-switch distinct ports), the recursive `_teach_mac_location`
terminates, and the recursion depth is bounded by the depth of that
tree: whenever every component switch has depth at most `R` (for `S`'s
own component, `R` can be taken to be the eccentricity of `S`, which is
at most the tree diameter), depth budget `R + 1` already suffices.  The
source has no visited set or cycle guard, so this termination is
conditional on the tree shape; `teach_diverges_on_cycle` below shows the
same recursion exhausting every finite depth budget on a state whose
active links form a cycle. -/
theorem teach_terminates_on_tree (st : NetState) (S : Nat) (parL : List (Nat × Link))
    (rankL : List (Nat × Nat)) (mac p : Nat) (t : List ((Nat × Nat) × Nat)) (R : Nat)
    (hT : TreeAt st S parL rankL) (hR : ∀ x ∈ compOf S parL, rankOf rankL x ≤ R)
    (hp : ∀ l ∈ activeLinksOf st S, l.port ≠ p) :
    ∃ t2, teachAux st (R + 1) S mac p t = some t2 := by
  rcases teach_master st S parL rankL mac hT R hR (R + 1) S p t (List.mem_cons_self _ _)
    (Or.inl ⟨rfl, hp⟩) (by omega) with ⟨t2, h1, _, _⟩
  exact ⟨t2, h1⟩

/-- The spanning-tree chain of the spec's example scenario (section 8):
switches 1 - 2 - 3, both link pairs active.  Used as the tree on which
the teaching claims are witnessed, with 3 as the taught switch. -/
def chainState : NetState :=
  NetState.mk [1, 2, 3]
    [(1, [⟨1, 10, 2, 20⟩]), (2, [⟨2, 20, 1, 10⟩, ⟨2, 30, 3, 40⟩]), (3, [⟨3, 40, 2, 30⟩])]
    [⟨1, 10, 2, 20⟩, ⟨2, 20, 1, 10⟩, ⟨2, 30, 3, 40⟩, ⟨3, 40, 2, 30⟩]
    [] (some 1)

/-- The parent links of `chainState` rooted at 3. -/
def chainPar : List (Nat × Link) := [(2, ⟨2, 30, 3, 40⟩), (1, ⟨1, 10, 2, 20⟩)]

/-- The depths of `chainState` rooted at 3. -/
def chainRank : List (Nat × Nat) := [(3, 0), (2, 1), (1, 2)]

theorem teach_terminates_on_tree_witness :
    (TreeAt chainState 3 chainPar chainRank ∧
      (∀ x ∈ compOf 3 chainPar, rankOf chainRank x ≤ 2) ∧
      (∀ l ∈ activeLinksOf chainState 3, l.port ≠ 5)) ∧
    ∃ t2, teachAux chainState (2 + 1) 3 77 5 chainState.tables = some t2 :=
  ⟨⟨by decide, by decide, by decide⟩,
    teach_terminates_on_tree chainState 3 chainPar chainRank 77 5 chainState.tables 2
      (by decide) (by decide) (by decide)⟩

/-! ## C3: MAC propagation along the tree -/

/-- A two-switch state whose single link pair is active, with local port
5 on switch 1: teaching switch 1 a binding whose port is also 5 (a host
binding that happens to share the port number) suppresses the
propagation over that link. -/
def cexState : NetState :=
  NetState.mk [1, 2] [(1, [⟨1, 5, 2, 7⟩]), (2, [⟨2, 7, 1, 5⟩])]
    [⟨1, 5, 2, 7⟩, ⟨2, 7, 1, 5⟩] [] (some 1)

/-- C3 counterexample: on `cexState` the active links form a tree and
switch 2 is reachable from switch 1 via active links, yet after
`_teach_mac_location(1, 77, 5)` runs (and terminates), switch 2 has no
table entry for MAC 77: the claim fails when the port argument equals
the local port of an active link of the taught switch. -/
theorem teach_port_collision_counterexample :
    TreeAt cexState 1 [(2, ⟨2, 7, 1, 5⟩)] [(1, 0), (2, 1)] ∧
    ReachVia (activeLinksOf cexState) 1 2 ∧
    teachAux cexState 5 1 77 5 cexState.tables = some [((1, 77), 5)] ∧
    tableGet [((1, 77), 5)] 2 77 = none := by
  refine ⟨by decide, ?_, by decide, by decide⟩
  exact ReachVia.step 1 ⟨1, 5, 2, 7⟩ ReachVia.refl (by decide)

/-- C3 (amended): after `_teach_mac_location(S, mac, port)` runs on a
state whose active links form a tree rooted at `S` (certificate `parL`,
`rankL`, with per-switch distinct active ports), provided `port` is not
the local port of any active link of `S` (a genuine host port), every
switch reachable from `S` via active links has a table entry for `mac`:
`S` itself records `port`, and every other such switch records the local
port of its own active link toward `S` (the reverse of the link the
teaching traversed). -/
theorem teach_propagates_on_tree (st : NetState) (S : Nat) (parL : List (Nat × Link))
    (rankL : List (Nat × Nat)) (mac p : Nat) (t : List ((Nat × Nat) × Nat)) (R : Nat)
    (hT : TreeAt st S parL rankL) (hR : ∀ x ∈ compOf S parL, rankOf rankL x ≤ R)
    (hp : ∀ l ∈ activeLinksOf st S, l.port ≠ p) :
    ∃ t2, teachAux st (R + 1) S mac p t = some t2 ∧
      ∀ x, ReachVia (activeLinksOf st) S x →
        (x = S → tableGet t2 x mac = some p) ∧
        (x ≠ S → ∃ lp, parL.lookup x = some lp ∧ lp ∈ st.active ∧ lp ∈ linksOf st x ∧
          tableGet t2 x mac = some lp.port) := by
  rcases teach_master st S parL rankL mac hT R hR (R + 1) S p t (List.mem_cons_self _ _)
    (Or.inl ⟨rfl, hp⟩) (by omega) with ⟨t2, hrun, hframe, hsub⟩
  refine ⟨t2, hrun, ?_⟩
  intro x hx
  have hxc : x ∈ compOf S parL := active_reach_comp st S parL rankL hT x hx
  have hdx : Desc parL S x := comp_desc st S parL rankL hT x hxc
  obtain ⟨hnd, hS, hpar, _, _⟩ := hT
  constructor
  · intro hxS
    subst hxS
    rw [hsub x hdx, if_pos rfl]
  · intro hxS
    have hxk : x ∈ parL.map Prod.fst := by
      rcases List.mem_cons.1 hxc with h2 | h2
      · exact absurd h2 hxS
      · exact h2
    rcases List.mem_map.1 hxk with ⟨e, he, h3⟩
    have hlook : parL.lookup x = some e.2 := by
      rw [← h3]
      exact lookup_eq_of_mem_nodup parL e.1 e.2 hnd he
    have hfacts := hpar e he
    refine ⟨e.2, hlook, hfacts.2.1, ?_, ?_⟩
    · have h4 : e.2 ∈ linksOf st e.1 := hfacts.1
      rw [h3] at h4
      exact h4
    · rw [hsub x hdx, if_neg hxS, hlook]
      rfl

theorem teach_propagates_on_tree_witness :
    (TreeAt chainState 3 chainPar chainRank ∧
      (∀ x ∈ compOf 3 chainPar, rankOf chainRank x ≤ 2) ∧
      (∀ l ∈ activeLinksOf chainState 3, l.port ≠ 5)) ∧
    (∃ t2, teachAux chainState (2 + 1) 3 77 5 chainState.tables = some t2 ∧
      ∀ x, ReachVia (activeLinksOf chainState) 3 x →
        (x = 3 → tableGet t2 x 77 = some 5) ∧
        (x ≠ 3 → ∃ lp, chainPar.lookup x = some lp ∧ lp ∈ chainState.active ∧
          lp ∈ linksOf chainState x ∧ tableGet t2 x 77 = some lp.port)) :=
  ⟨⟨by decide, by decide, by decide⟩,
    teach_propagates_on_tree chainState 3 chainPar chainRank 77 5 chainState.tables 2
      (by decide) (by decide) (by decide)⟩

/-! ## Divergence of the teaching recursion without the tree precondition -/

/-- A three-switch ring with every link pair active: the shape
`_rebuild_spanning_tree` is meant to prevent, used to show the teaching
recursion has no cycle guard of its own. -/
def cycleState : NetState :=
  NetState.mk [1, 2, 3]
    [(1, [⟨1, 10, 2, 20⟩, ⟨1, 60, 3, 50⟩]),
     (2, [⟨2, 20, 1, 10⟩, ⟨2, 30, 3, 40⟩]),
     (3, [⟨3, 40, 2, 30⟩, ⟨3, 50, 1, 60⟩])]
    [⟨1, 10, 2, 20⟩, ⟨2, 20, 1, 10⟩, ⟨2, 30, 3, 40⟩, ⟨3, 40, 2, 30⟩,
     ⟨3, 50, 1, 60⟩, ⟨1, 60, 3, 50⟩]
    [] (some 1)

theorem teach_cycle_invariant : ∀ fuel : Nat, ∀ t,
    teachAux cycleState fuel 2 77 20 t = none ∧
    teachAux cycleState fuel 3 77 40 t = none ∧
    teachAux cycleState fuel 1 77 60 t = none := by
  intro fuel
  induction fuel with
  | zero => intro t; exact ⟨rfl, rfl, rfl⟩
  | succ f ih =>
    intro t
    refine ⟨?_, ?_, ?_⟩
    · show teachAux cycleState f 3 77 40 (tableSet t 2 77 20) = none
      exact (ih _).2.1
    · show teachAux cycleState f 1 77 60 (tableSet t 3 77 40) = none
      exact (ih _).2.2
    · show teachAux cycleState f 2 77 20 (tableSet t 1 77 60) = none
      exact (ih _).1

/-- On `cycleState`, teaching switch 1 from a host port exhausts every
finite recursion budget: the call chain 1 → 2 → 3 → 1 → ... never
revisits the arrival link yet loops forever, because each hop's arrival
port only excludes the immediately incoming link.  This is the
unconditional-divergence half of the C4 analysis: the Python recursion
really has no visited set, so the tree precondition is essential. -/
theorem teach_diverges_on_cycle : ∀ fuel : Nat, ∀ t,
    teachAux cycleState fuel 1 77 99 t = none := by
  intro fuel t
  cases fuel with
  | zero => rfl
  | succ f =>
    show ((teachAux cycleState f 2 77 20 (tableSet t 1 77 99)).bind
      (fun t2 => teachAux cycleState f 3 77 50 t2)) = none
    rw [(teach_cycle_invariant f (tableSet t 1 77 99)).1]
    rfl

/-! ## C10: the arrival link is identified by local port number only -/

/-- C10 (implicit): `_teach_mac_location` filters the links to recurse on
by `x.port != port` alone, so on a tree state, for every active link of
the taught switch `S` whose local port equals the port argument `p`, the
entire subtree behind that link is left untaught (its `mac` entries are
unchanged) — even when `p` came from a host binding that merely shares a
port number with that inter-switch link — while the subtree behind every
active link with a different local port is fully taught.  `S` itself
always records `p`. -/
theorem teach_arrival_port_only (st : NetState) (S : Nat) (parL : List (Nat × Link))
    (rankL : List (Nat × Nat)) (mac p : Nat) (t : List ((Nat × Nat) × Nat)) (R : Nat)
    (hT : TreeAt st S parL rankL) (hR : ∀ x ∈ compOf S parL, rankOf rankL x ≤ R) :
    ∃ t2, teachAux st (R + 1) S mac p t = some t2 ∧
      tableGet t2 S mac = some p ∧
      (∀ l ∈ activeLinksOf st S, l.port = p →
        ∀ y, Desc parL l.dst y → tableGet t2 y mac = tableGet t y mac) ∧
      (∀ l ∈ activeLinksOf st S, l.port ≠ p →
        ∀ y, Desc parL l.dst y →
          tableGet t2 y mac = (parL.lookup y).map (fun e => e.port)) := by
  obtain ⟨hnd, hS, hpar, hcov, hports⟩ := hT
  have hT2 : TreeAt st S parL rankL := ⟨hnd, hS, hpar, hcov, hports⟩
  have hparrank : ∀ e ∈ parL, rankOf rankL e.2.dst < rankOf rankL e.1 :=
    fun e he => (hpar e he).2.2.2.2
  have hSc : S ∈ compOf S parL := List.mem_cons_self _ _
  have hlookS : parL.lookup S = none := lookup_none_of_not_mem parL S hS
  have hchild : ∀ l ∈ (linksOf st S).filter
      (fun l => decide (l.port ≠ p) && decide (l ∈ st.active)),
      parL.lookup l.dst = some l.reverse ∧ l.dst ∈ compOf S parL ∧ l.src = S := by
    intro l hl
    have h2 := List.mem_filter.1 hl
    have hact : l ∈ st.active := by
      have := h2.2
      simp at this
      exact this.2
    obtain ⟨hsrc, hdc, _, _, hdisj⟩ := hcov S hSc l h2.1 hact
    refine ⟨?_, hdc, hsrc⟩
    rcases hdisj with h3 | h3
    · rw [hlookS] at h3
      exact Option.noConfusion h3
    · exact h3
  have hnotdescS : ∀ c : Nat, parL.lookup c ≠ none → ¬ Desc parL c S := by
    intro c hc hd
    cases hd with
    | refl => exact hc hlookS
    | step _ l2 hlook _ => rw [hlookS] at hlook; exact Option.noConfusion hlook
  have hfold : ∀ (cs : List Link),
      (∀ l ∈ cs, parL.lookup l.dst = some l.reverse ∧ l.dst ∈ compOf S parL ∧ l.src = S) →
      ∀ t0, ∃ t2,
        cs.foldl (fun acc l => acc.bind
          (fun tb => teachAux st R l.dst mac l.reverse.port tb)) (some t0) = some t2 ∧
        (∀ y m, ((∀ l ∈ cs, ¬ Desc parL l.dst y) ∨ m ≠ mac) →
          tableGet t2 y m = tableGet t0 y m) ∧
        (∀ y l, l ∈ cs → Desc parL l.dst y →
          tableGet t2 y mac = (parL.lookup y).map (fun e => e.port)) := by
    intro cs
    induction cs with
    | nil =>
      intro _ t0
      refine ⟨t0, rfl, fun y m _ => rfl, fun y l hl => absurd hl (by simp)⟩
    | cons c cs ihc =>
      intro hcf t0
      have hc := hcf c (List.mem_cons_self _ _)
      have hrk : 1 ≤ rankOf rankL c.dst := by
        have hmem := lookup_mem c.dst parL c.reverse hc.1
        have h5 : rankOf rankL c.reverse.dst < rankOf rankL c.dst :=
          hparrank (c.dst, c.reverse) hmem
        omega
      have hcall := teach_master st S parL rankL mac hT2 R hR R c.dst c.reverse.port t0
        hc.2.1 (Or.inr ⟨c.reverse, hc.1, rfl⟩) (by omega)
      rcases hcall with ⟨t1, hrun, hframe1, hsub1⟩
      rcases ihc (fun l hl => hcf l (List.mem_cons_of_mem _ hl)) t1 with
        ⟨t2, hrun2, hframe2, hsub2⟩
      have huni : ∀ y, Desc parL c.dst y →
          tableGet t1 y mac = (parL.lookup y).map (fun e => e.port) := by
        intro y hdy
        rw [hsub1 y hdy]
        by_cases hyc : y = c.dst
        · rw [if_pos hyc, hyc, hc.1]
          rfl
        · rw [if_neg hyc]
      refine ⟨t2, ?_, ?_, ?_⟩
      · rw [List.foldl_cons]
        have hstep : (Option.bind (some t0)
            (fun tb => teachAux st R c.dst mac c.reverse.port tb)) = some t1 := by
          show teachAux st R c.dst mac c.reverse.port t0 = some t1
          exact hrun
        rw [hstep]
        exact hrun2
      · intro y m hy
        rcases hy with hy | hy
        · have hy1 : ¬ Desc parL c.dst y := hy c (List.mem_cons_self _ _)
          have hy2 : ∀ l ∈ cs, ¬ Desc parL l.dst y :=
            fun l hl => hy l (List.mem_cons_of_mem _ hl)
          rw [hframe2 y m (Or.inl hy2), hframe1 y m (Or.inl hy1)]
        · rw [hframe2 y m (Or.inr hy), hframe1 y m (Or.inr hy)]
      · intro y l hl hdy
        rcases List.mem_cons.1 hl with h2 | h2
        · subst h2
          by_cases hex : ∃ l2, l2 ∈ cs ∧ Desc parL l2.dst y
          · rcases hex with ⟨l2, hl2, hd2⟩
            exact hsub2 y l2 hl2 hd2
          · push_neg at hex
            rw [hframe2 y mac (Or.inl hex)]
            exact huni y hdy
        · exact hsub2 y l h2 hdy
  rcases hfold ((linksOf st S).filter
      (fun l => decide (l.port ≠ p) && decide (l ∈ st.active))) hchild
      (tableSet t S mac p) with ⟨t2, hrun, hframeF, hsubF⟩
  refine ⟨t2, ?_, ?_, ?_, ?_⟩
  · rw [teachAux]
    exact hrun
  · have hall : ∀ l ∈ (linksOf st S).filter
        (fun l => decide (l.port ≠ p) && decide (l ∈ st.active)),
        ¬ Desc parL l.dst S := by
      intro l hl
      exact hnotdescS l.dst (by rw [(hchild l hl).1]; exact fun h => Option.noConfusion h)
    rw [hframeF S mac (Or.inl hall)]
    exact tableGet_set_self t S mac p
  · intro l hla hport y hdy
    have hlf := List.mem_filter.1 hla
    have hact : l ∈ st.active := by
      have := hlf.2
      simpa using this
    obtain ⟨hsrc, _, _, _, hdisj⟩ := hcov S hSc l hlf.1 hact
    have hlookc : parL.lookup l.dst = some l.reverse := by
      rcases hdisj with h3 | h3
      · rw [hlookS] at h3
        exact absurd h3 (fun h => Option.noConfusion h)
      · exact h3
    have hyS : y ≠ S := by
      intro h2
      rw [h2] at hdy
      exact hnotdescS l.dst (by rw [hlookc]; exact fun h => Option.noConfusion h) hdy
    have hall : ∀ l2 ∈ (linksOf st S).filter
        (fun l2 => decide (l2.port ≠ p) && decide (l2 ∈ st.active)),
        ¬ Desc parL l2.dst y := by
      intro l2 hl2 hd2
      have hc2 := hchild l2 hl2
      have hsame : l.dst = l2.dst := by
        refine desc_siblings parL rankL hparrank S l.dst l2.dst y l.reverse l2.reverse
          hlookc ?_ hc2.1 ?_ hdy hd2
        · show l.src = S
          exact hsrc
        · show l2.src = S
          exact hc2.2.2
      have hrev : l.reverse = l2.reverse := by
        have h4 := hc2.1
        rw [← hsame, hlookc] at h4
        exact Option.some.inj h4
      have hll : l = l2 := by
        rw [← Link.reverse_reverse l, hrev, Link.reverse_reverse]
      rw [hll] at hport
      have := (List.mem_filter.1 hl2).2
      simp at this
      exact this.1 hport
    rw [hframeF y mac (Or.inl hall)]
    exact tableGet_set_other t S mac p y mac (by simp [hyS])
  · intro l hla hport y hdy
    have hlf := List.mem_filter.1 hla
    have hact : l ∈ st.active := by
      have := hlf.2
      simpa using this
    have hlF : l ∈ (linksOf st S).filter
        (fun l => decide (l.port ≠ p) && decide (l ∈ st.active)) :=
      List.mem_filter.2 ⟨hlf.1, by simp [hport, hact]⟩
    exact hsubF y l hlF hdy

/-- A star rooted at switch 1: active links to 2 (local port 10) and to
3 (local port 30), both pairs active.  Teaching switch 1 a host binding
whose port is 10 suppresses the subtree behind the port-10 link while
the port-30 link is still followed. -/
def starState : NetState :=
  NetState.mk [1, 2, 3]
    [(1, [⟨1, 10, 2, 21⟩, ⟨1, 30, 3, 31⟩]), (2, [⟨2, 21, 1, 10⟩]), (3, [⟨3, 31, 1, 30⟩])]
    [⟨1, 10, 2, 21⟩, ⟨2, 21, 1, 10⟩, ⟨1, 30, 3, 31⟩, ⟨3, 31, 1, 30⟩]
    [] (some 1)

/-- The parent links of `starState` rooted at 1. -/
def starPar : List (Nat × Link) := [(2, ⟨2, 21, 1, 10⟩), (3, ⟨3, 31, 1, 30⟩)]

/-- The depths of `starState` rooted at 1. -/
def starRank : List (Nat × Nat) := [(1, 0), (2, 1), (3, 1)]

theorem teach_arrival_port_only_witness :
    (TreeAt starState 1 starPar starRank ∧
      (∀ x ∈ compOf 1 starPar, rankOf starRank x ≤ 1)) ∧
    (∃ t2, teachAux starState (1 + 1) 1 77 10 starState.tables = some t2 ∧
      tableGet t2 1 77 = some 10 ∧
      (∀ l ∈ activeLinksOf starState 1, l.port = 10 →
        ∀ y, Desc starPar l.dst y → tableGet t2 y 77 = tableGet starState.tables y 77) ∧
      (∀ l ∈ activeLinksOf starState 1, l.port ≠ 10 →
        ∀ y, Desc starPar l.dst y →
          tableGet t2 y 77 = (starPar.lookup y).map (fun e => e.port))) :=
  ⟨⟨by decide, by decide⟩,
    teach_arrival_port_only starState 1 starPar starRank 77 10 starState.tables 1
      (by decide) (by decide)⟩

/-! ## C1: after a rebuild the active links form a spanning tree of the
start's component.  The BFS pred list is shown to list each discovered
switch with a parent discovered strictly earlier; the activation
characterization then identifies the in-component active links with the
parent pairs, giving connectivity, the bridge property (acyclicity) and
the n-1 edge count over normalized switch pairs. -/

/-- Position of the first occurrence of `y` in a list (length if absent);
the discovery order of the search front. -/
def posOf : List Nat → Nat → Nat
  | [], _ => 0
  | x :: xs, y => if x = y then 0 else posOf xs y + 1

theorem posOf_lt_length (l : List Nat) (y : Nat) (h : y ∈ l) : posOf l y < l.length := by
  induction l with
  | nil => simp at h
  | cons x xs ih =>
    rw [posOf, List.length_cons]
    by_cases h2 : x = y
    · rw [if_pos h2]
      omega
    · rw [if_neg h2]
      have h3 : y ∈ xs := by
        rcases List.mem_cons.1 h with h4 | h4
        · exact absurd h4.symm h2
        · exact h4
      have := ih h3
      omega

theorem posOf_append_left (l1 l2 : List Nat) (y : Nat) (h : y ∈ l1) :
    posOf (l1 ++ l2) y = posOf l1 y := by
  induction l1 with
  | nil => simp at h
  | cons x xs ih =>
    rw [List.cons_append, posOf, posOf]
    by_cases h2 : x = y
    · rw [if_pos h2, if_pos h2]
    · rw [if_neg h2, if_neg h2]
      have h3 : y ∈ xs := by
        rcases List.mem_cons.1 h with h4 | h4
        · exact absurd h4.symm h2
        · exact h4
      rw [ih h3]

theorem posOf_append_right (l1 l2 : List Nat) (y : Nat) (h : y ∉ l1) :
    posOf (l1 ++ l2) y = l1.length + posOf l2 y := by
  induction l1 with
  | nil => simp [posOf]
  | cons x xs ih =>
    rw [List.cons_append, posOf, List.length_cons]
    have h2 : x ≠ y := fun h3 => h (h3 ▸ List.mem_cons_self x xs)
    rw [if_neg h2, ih (fun h3 => h (List.mem_cons_of_mem _ h3))]
    omega

/-- Assign each element of a list its position, as an association list
(the depth certificate extracted from the discovery order). -/
def mkRanksAux : Nat → List Nat → List (Nat × Nat)
  | _, [] => []
  | i, x :: xs => (x, i) :: mkRanksAux (i + 1) xs

theorem mkRanksAux_lookup (L : List Nat) : ∀ i y, L.Nodup → y ∈ L →
    (mkRanksAux i L).lookup y = some (i + posOf L y) := by
  induction L with
  | nil =>
    intro i y _ h
    simp at h
  | cons x xs ih =>
    intro i y hnd hy
    rw [mkRanksAux]
    by_cases h2 : x = y
    · subst h2
      simp [List.lookup, posOf]
    · have hy2 : y ∈ xs := by
        rcases List.mem_cons.1 hy with h3 | h3
        · exact absurd h3.symm h2
        · exact h3
      have hbeq : (y == x) = false := by
        simp
        exact fun h3 => h2 h3.symm
      simp only [List.lookup, hbeq]
      rw [ih (i + 1) y (List.nodup_cons.1 hnd).2 hy2, posOf, if_neg h2]
      exact congrArg some (by omega)

theorem rankOf_posOf (L : List Nat) (y : Nat) (hnd : L.Nodup) (hy : y ∈ L) :
    rankOf (mkRanksAux 0 L) y = posOf L y := by
  unfold rankOf
  rw [mkRanksAux_lookup L 0 y hnd hy]
  show 0 + posOf L y = posOf L y
  omega

/-- The undirected switch pair of a link, normalized so that both
directions of a link pair (and all parallel links between the same two
switches) give the same pair. -/
def normPair (a b : Nat) : Nat × Nat := if a ≤ b then (a, b) else (b, a)

theorem normPair_comm (a b : Nat) : normPair a b = normPair b a := by
  unfold normPair
  split_ifs with h1 h2 h2
  · have h3 : a = b := Nat.le_antisymm h1 h2
    rw [h3]
  · rfl
  · rfl
  · exfalso
    omega

theorem normPair_eq_or (a b : Nat) : normPair a b = (a, b) ∨ normPair a b = (b, a) := by
  unfold normPair
  split_ifs
  · exact Or.inl rfl
  · exact Or.inr rfl

theorem normPair_cases (a b c d : Nat) (h : normPair a b = normPair c d) :
    (a = c ∧ b = d) ∨ (a = d ∧ b = c) := by
  unfold normPair at h
  split_ifs at h with h1 h2 h2
  all_goals rw [Prod.mk.injEq] at h
  all_goals rcases h with ⟨h3, h4⟩
  · exact Or.inl ⟨h3, h4⟩
  · exact Or.inr ⟨h3, h4⟩
  · exact Or.inr ⟨h4, h3⟩
  · exact Or.inl ⟨h4, h3⟩

/-- Connectivity in the undirected graph given by a list of switch
pairs: `PConn E s x` holds when a chain of pairs of `E` (used in either
orientation) joins `s` to `x`. -/
inductive PConn (E : List (Nat × Nat)) (s : Nat) : Nat → Prop where
  | refl : PConn E s s
  | step (b c : Nat) : PConn E s b → ((b, c) ∈ E ∨ (c, b) ∈ E) → PConn E s c

/-- The undirected edges of the active links inside the component of
`s`: each active link owned by a component switch contributes its
normalized switch pair, deduplicated. -/
def compEdges (st : NetState) (s : Nat) : List (Nat × Nat) :=
  dedupKeepFirst ((((reachList st s).map (fun d => activeLinksOf st d)).flatten).map
    (fun l => normPair l.src l.dst))

theorem mem_compEdges (st : NetState) (s : Nat) (e : Nat × Nat) :
    e ∈ compEdges st s ↔ ∃ d ∈ reachList st s, ∃ l ∈ activeLinksOf st d,
      e = normPair l.src l.dst := by
  unfold compEdges
  rw [mem_dedupKeepFirst]
  constructor
  · intro h
    rcases List.mem_map.1 h with ⟨l, hl, h2⟩
    rcases List.mem_flatten.1 hl with ⟨ls, hls, hl2⟩
    rcases List.mem_map.1 hls with ⟨d, hd, h3⟩
    refine ⟨d, hd, l, ?_, h2.symm⟩
    rw [← h3] at hl2
    exact hl2
  · rintro ⟨d, hd, l, hl, h2⟩
    exact List.mem_map.2 ⟨l, List.mem_flatten.2
      ⟨activeLinksOf st d, List.mem_map.2 ⟨d, hd, rfl⟩, hl⟩, h2.symm⟩

theorem lookup_map_link (Q : List (Nat × Nat)) (y : Nat) :
    (Q.map (fun q => (q.1, Link.mk q.1 0 q.2 0))).lookup y =
      (Q.lookup y).map (fun p => Link.mk y 0 p 0) := by
  induction Q with
  | nil => rfl
  | cons q qs ih =>
    rcases q with ⟨k, p⟩
    by_cases h2 : y = k
    · subst h2
      simp [List.lookup]
    · have hbeq : (y == k) = false := by simp [h2]
      simp only [List.map_cons, List.lookup, hbeq]
      exact ih

theorem bfsAux_nil (nbrs : Nat → List Nat) (nodes : List Nat) (pred : List (Nat × Nat))
    (visited : List Nat) : bfsAux nbrs nodes pred visited [] = pred := by
  rw [bfsAux]

theorem bfsAux_cons (nbrs : Nat → List Nat) (nodes : List Nat) (pred : List (Nat × Nat))
    (visited : List Nat) (s : Nat) (rest : List Nat) :
    bfsAux nbrs nodes pred visited (s :: rest) =
      bfsAux nbrs nodes
        (pred ++ (dedupKeepFirst ((nbrs s).filter
          (fun v => decide (v ∈ nodes) && !(decide (v ∈ visited))))).map (fun v => (v, s)))
        (visited ++ dedupKeepFirst ((nbrs s).filter
          (fun v => decide (v ∈ nodes) && !(decide (v ∈ visited)))))
        (rest ++ dedupKeepFirst ((nbrs s).filter
          (fun v => decide (v ∈ nodes) && !(decide (v ∈ visited))))) := by
  rw [bfsAux]

/-- The search invariants of `bfsAux`, all at once: the visited list is
the source followed by the discovered keys in discovery order, keys are
distinct, every recorded predecessor was discovered strictly earlier and
is a real graph neighbor, and at termination every visited node's
in-scope neighborhood is visited (closure). -/
theorem bfsAux_master (nbrs : Nat → List Nat) (nodes : List Nat) (v0 : Nat) :
    ∀ pred visited queue,
      visited = v0 :: pred.map Prod.fst →
      visited.Nodup →
      (∀ q ∈ queue, q ∈ visited) →
      (∀ e ∈ pred, e.1 ∈ nbrs e.2 ∧ e.1 ∈ nodes ∧ e.2 ∈ visited ∧
        posOf visited e.2 < posOf visited e.1) →
      (∀ x ∈ visited, x ∈ queue ∨ ∀ v ∈ nbrs x, v ∈ nodes → v ∈ visited) →
      (((bfsAux nbrs nodes pred visited queue).map Prod.fst).Nodup ∧
       v0 ∉ (bfsAux nbrs nodes pred visited queue).map Prod.fst ∧
       (∀ e ∈ bfsAux nbrs nodes pred visited queue,
         e.1 ∈ nbrs e.2 ∧ e.1 ∈ nodes ∧
         e.2 ∈ v0 :: (bfsAux nbrs nodes pred visited queue).map Prod.fst ∧
         posOf (v0 :: (bfsAux nbrs nodes pred visited queue).map Prod.fst) e.2 <
           posOf (v0 :: (bfsAux nbrs nodes pred visited queue).map Prod.fst) e.1) ∧
       (∀ x ∈ v0 :: (bfsAux nbrs nodes pred visited queue).map Prod.fst,
         ∀ v ∈ nbrs x, v ∈ nodes →
           v ∈ v0 :: (bfsAux nbrs nodes pred visited queue).map Prod.fst)) := by
  intro pred visited queue
  induction pred, visited, queue using bfsAux.induct nbrs nodes with
  | case1 pred visited =>
    intro hv hnd hq hent hcl
    rw [bfsAux_nil]
    rw [hv] at hnd
    rw [← hv]
    obtain ⟨h3, h4⟩ := List.nodup_cons.1 hnd
    refine ⟨h4, h3, hent, ?_⟩
    intro x hx v hv1 hv2
    rcases hcl x hx with h5 | h5
    · simp at h5
    · exact h5 v hv1 hv2
  | case2 pred visited s rest fresh ih =>
    intro hv hnd hq hent hcl
    have hfr : fresh = dedupKeepFirst ((nbrs s).filter
        (fun v => decide (v ∈ nodes) && !(decide (v ∈ visited)))) := rfl
    have hFmem : ∀ v, v ∈ fresh ↔ v ∈ nbrs s ∧ v ∈ nodes ∧ v ∉ visited := by
      intro v
      rw [hfr, mem_dedupKeepFirst, List.mem_filter, Bool.and_eq_true, decide_eq_true_eq,
        Bool.not_eq_true', decide_eq_false_iff_not]
    have hFnd : fresh.Nodup := by
      rw [hfr]
      exact nodup_dedupKeepFirst _
    have hsvis : s ∈ visited := hq s (List.mem_cons_self _ _)
    have heq := bfsAux_cons nbrs nodes pred visited s rest
    rw [← hfr] at heq
    rw [heq]
    have hmapfst : (fresh.map (fun v => (v, s))).map Prod.fst = fresh := by
      rw [List.map_map]
      exact List.map_id fresh
    refine ih ?_ ?_ ?_ ?_ ?_
    · rw [List.map_append, hmapfst, hv]
      rfl
    · exact List.nodup_append.2 ⟨hnd, hFnd, fun a ha haf => ((hFmem a).1 haf).2.2 ha⟩
    · intro q hqm
      rcases List.mem_append.1 hqm with h2 | h2
      · exact List.mem_append_left _ (hq q (List.mem_cons_of_mem _ h2))
      · exact List.mem_append_right _ h2
    · intro e he
      rcases List.mem_append.1 he with h2 | h2
      · obtain ⟨ha, hb, hc, hd⟩ := hent e h2
        have he1 : e.1 ∈ visited := by
          rw [hv]
          exact List.mem_cons_of_mem _ (List.mem_map.2 ⟨e, h2, rfl⟩)
        refine ⟨ha, hb, List.mem_append_left _ hc, ?_⟩
        rw [posOf_append_left _ _ _ hc, posOf_append_left _ _ _ he1]
        exact hd
      · rcases List.mem_map.1 h2 with ⟨v, hvF, h3⟩
        obtain ⟨hva, hvb, hvc⟩ := (hFmem v).1 hvF
        subst h3
        refine ⟨hva, hvb, List.mem_append_left _ hsvis, ?_⟩
        show posOf (visited ++ fresh) s < posOf (visited ++ fresh) v
        rw [posOf_append_left _ _ _ hsvis, posOf_append_right _ _ _ hvc]
        have h4 := posOf_lt_length visited s hsvis
        omega
    · intro x hx
      rcases List.mem_append.1 hx with h2 | h2
      · rcases hcl x h2 with h3 | h3
        · rcases List.mem_cons.1 h3 with h4 | h4
          · subst h4
            right
            intro v hv1 hv2
            by_cases h5 : v ∈ visited
            · exact List.mem_append_left _ h5
            · exact List.mem_append_right _ ((hFmem v).2 ⟨hv1, hv2, h5⟩)
          · exact Or.inl (List.mem_append_left _ h4)
        · right
          intro v hv1 hv2
          exact List.mem_append_left _ (h3 v hv1 hv2)
      · exact Or.inl (List.mem_append_right _ h2)

/-- The BFS pred list of a rebuild started at `s` (the `pred` map of
`find_shortest_paths` on the swept scope). -/
def bfsP (st : NetState) (s : Nat) : List (Nat × Nat) :=
  bfsAux (nbrsOf st) (reachList st s) [] [s] [s]

/-- The BFS discovery order: the start switch followed by the keys of
the pred list. -/
def visList (st : NetState) (s : Nat) : List Nat := s :: (bfsP st s).map Prod.fst

theorem bfs_facts (st : NetState) (s : Nat) :
    ((bfsP st s).map Prod.fst).Nodup ∧
    s ∉ (bfsP st s).map Prod.fst ∧
    (∀ e ∈ bfsP st s, e.1 ∈ nbrsOf st e.2 ∧ e.1 ∈ reachList st s ∧
      e.2 ∈ visList st s ∧ posOf (visList st s) e.2 < posOf (visList st s) e.1) ∧
    (∀ x ∈ visList st s, ∀ v ∈ nbrsOf st x, v ∈ reachList st s → v ∈ visList st s) := by
  exact bfsAux_master (nbrsOf st) (reachList st s) s [] [s] [s] rfl (by simp)
    (fun q h => h) (by simp) (fun x hx => Or.inl hx)

theorem visList_complete (st : NetState) (s : Nat) :
    ∀ x, ReachVia (linksOf st) s x → x ∈ visList st s := by
  intro x hx
  induction hx with
  | refl => exact List.mem_cons_self _ _
  | step y l hy hl ih =>
    refine (bfs_facts st s).2.2.2 y ih l.dst ?_ ?_
    · exact List.mem_map.2 ⟨l, hl, rfl⟩
    · exact (mem_reachList st s l.dst).2 (ReachVia.step y l hy hl)

theorem pathsOf_eq (st : NetState) (s : Nat) :
    pathsOf st s = (reachList st s).map (fun d => (d, (bfsP st s).lookup d)) := rfl

theorem pathsOf_mem_some (st : NetState) (s d b : Nat) :
    (d, some b) ∈ pathsOf st s ↔ d ∈ reachList st s ∧ (bfsP st s).lookup d = some b := by
  rw [pathsOf_eq]
  constructor
  · intro h
    rcases List.mem_map.1 h with ⟨x, hx, h2⟩
    rw [Prod.mk.injEq] at h2
    rw [← h2.1]
    exact ⟨hx, h2.2⟩
  · rintro ⟨h1, h2⟩
    exact List.mem_map.2 ⟨d, h1, by rw [h2]⟩

theorem desc_inv (parL : List (Nat × Link)) (x y : Nat) (h : Desc parL x y) :
    y = x ∨ ∃ l, parL.lookup y = some l ∧ Desc parL x l.dst := by
  cases h with
  | refl => exact Or.inl rfl
  | step y l hl hd => exact Or.inr ⟨l, hl, hd⟩

/-- Every pred entry of the rebuild's BFS is realized by an active link
from the child to its parent after the rebuild (the activation loop
activates every link from a node toward its best predecessor). -/
theorem bfs_edge_active (st : NetState) (s : Nat)
    (hwf : ∀ e ∈ st.adj, ∀ l ∈ e.2, l.src = e.1)
    (hrevA : ∀ d, ∀ l ∈ linksOf st d, l.reverse ∈ linksOf st l.dst) :
    ∀ e ∈ bfsP st s, ∃ l, l ∈ linksOf st e.1 ∧ l.src = e.1 ∧ l.dst = e.2 ∧
      l ∈ (rebuildFrom st s).active := by
  intro e he
  obtain ⟨hnb, hnodes, hvis, hpos⟩ := (bfs_facts st s).2.2.1 e he
  rcases List.mem_map.1 hnb with ⟨l0, hl0, hl0d⟩
  have hl0src : l0.src = e.2 := linksOf_src st hwf e.2 l0 hl0
  have hmem : l0.reverse ∈ linksOf st e.1 := by
    have h2 := hrevA e.2 l0 hl0
    rw [hl0d] at h2
    exact h2
  refine ⟨l0.reverse, hmem, ?_, ?_, ?_⟩
  · show l0.dst = e.1
    exact hl0d
  · show l0.src = e.2
    exact hl0src
  · rw [mem_rebuildFrom_active]
    left
    have hlk : (bfsP st s).lookup e.1 = some e.2 :=
      lookup_eq_of_mem_nodup _ e.1 e.2 (bfs_facts st s).1 he
    refine ⟨e.1, e.2, l0.reverse, (pathsOf_mem_some st s e.1 e.2).2 ⟨hnodes, hlk⟩, hmem, ?_,
      Or.inl rfl⟩
    show l0.src = e.2
    exact hl0src

/-- Conversely, every link left (or made) active inside the component
joins some BFS child to its parent: links between non-parent pairs are
iterated by the loop as non-best and end up deactivated. -/
theorem active_edge_is_tree_pair (st : NetState) (s : Nat)
    (hwf : ∀ e ∈ st.adj, ∀ l ∈ e.2, l.src = e.1)
    (hrevA : ∀ d, ∀ l ∈ linksOf st d, l.reverse ∈ linksOf st l.dst)
    (hself : ∀ l ∈ st.active, l.src ≠ l.dst) :
    ∀ x ∈ (rebuildFrom st s).active, ∀ d ∈ reachList st s, x ∈ linksOf st d →
      ∃ e ∈ bfsP st s, normPair x.src x.dst = normPair e.1 e.2 := by
  intro x hx d hd hxl
  have hxsrc : x.src = d := linksOf_src st hwf d x hxl
  rw [mem_rebuildFrom_active] at hx
  rcases hx with hAct | ⟨hold, hNB⟩
  · rcases hAct with ⟨d1, b, l0, hps1, hl0, hl0d, h2⟩
    obtain ⟨hd1, hlk⟩ := (pathsOf_mem_some st s d1 b).1 hps1
    have he : (d1, b) ∈ bfsP st s := lookup_mem d1 (bfsP st s) b hlk
    have hl0src : l0.src = d1 := linksOf_src st hwf d1 l0 hl0
    rcases h2 with h2 | h2
    · refine ⟨(d1, b), he, ?_⟩
      rw [h2, hl0src, hl0d]
    · refine ⟨(d1, b), he, ?_⟩
      rw [h2]
      show normPair l0.dst l0.src = normPair d1 b
      rw [hl0src, hl0d]
      exact normPair_comm b d1
  · by_cases hds : d = s
    · subst hds
      have hxds : x.dst ≠ d := by
        intro h2
        exact hself x hold (by rw [hxsrc, h2])
      have hdstnodes : x.dst ∈ reachList st d :=
        (mem_reachList st d x.dst).2
          (ReachVia.step d x ((mem_reachList st d d).1 hd) hxl)
      have hdstvis : x.dst ∈ visList st d := visList_complete st d x.dst
        ((mem_reachList st d x.dst).1 hdstnodes)
      have hkey : x.dst ∈ (bfsP st d).map Prod.fst := by
        rcases List.mem_cons.1 hdstvis with h2 | h2
        · exact absurd h2 hxds
        · exact h2
      rcases List.mem_map.1 hkey with ⟨e, he, hfst⟩
      have he2 : (x.dst, e.2) ∈ bfsP st d := by
        rw [← hfst]
        exact he
      have hlk : (bfsP st d).lookup x.dst = some e.2 :=
        lookup_eq_of_mem_nodup _ x.dst e.2 (bfs_facts st d).1 he2
      by_cases hp : e.2 = d
      · refine ⟨e, he, ?_⟩
        rw [hxsrc, ← hp, ← hfst]
        exact normPair_comm e.2 e.1
      · exfalso
        apply hNB
        refine ⟨x.dst, e.2, x.reverse, (pathsOf_mem_some st d x.dst e.2).2 ⟨hdstnodes, hlk⟩,
          hrevA d x hxl, ?_, Or.inr (Link.reverse_reverse x).symm⟩
        show x.src ≠ e.2
        rw [hxsrc]
        exact fun h2 => hp h2.symm
    · have hdvis : d ∈ visList st s := visList_complete st s d ((mem_reachList st s d).1 hd)
      have hkey : d ∈ (bfsP st s).map Prod.fst := by
        rcases List.mem_cons.1 hdvis with h2 | h2
        · exact absurd h2 hds
        · exact h2
      rcases List.mem_map.1 hkey with ⟨e, he, hfst⟩
      have he2 : (d, e.2) ∈ bfsP st s := by
        rw [← hfst]
        exact he
      have hlk : (bfsP st s).lookup d = some e.2 :=
        lookup_eq_of_mem_nodup _ d e.2 (bfs_facts st s).1 he2
      by_cases hb : x.dst = e.2
      · refine ⟨e, he, ?_⟩
        rw [hxsrc, hb, ← hfst]
      · exfalso
        apply hNB
        exact ⟨d, e.2, x, (pathsOf_mem_some st s d e.2).2 ⟨hd, hlk⟩, hxl, hb, Or.inl rfl⟩

/-- The undirected in-component edges after the rebuild are exactly the
normalized BFS child/parent pairs. -/
theorem compEdges_eq_pairs (st : NetState) (s : Nat)
    (hwf : ∀ e ∈ st.adj, ∀ l ∈ e.2, l.src = e.1)
    (hrevA : ∀ d, ∀ l ∈ linksOf st d, l.reverse ∈ linksOf st l.dst)
    (hself : ∀ l ∈ st.active, l.src ≠ l.dst) :
    ∀ pr, pr ∈ compEdges (rebuildFrom st s) s ↔
      pr ∈ (bfsP st s).map (fun e => normPair e.1 e.2) := by
  have hRL : reachList (rebuildFrom st s) s = reachList st s := rfl
  have hAL : ∀ d, activeLinksOf (rebuildFrom st s) d =
      (linksOf st d).filter (fun l => decide (l ∈ (rebuildFrom st s).active)) := fun d => rfl
  intro pr
  constructor
  · intro h
    rcases (mem_compEdges _ s pr).1 h with ⟨d, hd, l, hl, hpr⟩
    rw [hRL] at hd
    rw [hAL d] at hl
    obtain ⟨hll, hact⟩ := List.mem_filter.1 hl
    rw [decide_eq_true_eq] at hact
    rcases active_edge_is_tree_pair st s hwf hrevA hself l hact d hd hll with ⟨e, he, hnp⟩
    exact List.mem_map.2 ⟨e, he, (hpr.trans hnp).symm⟩
  · intro h
    rcases List.mem_map.1 h with ⟨e, he, hpr⟩
    rcases bfs_edge_active st s hwf hrevA e he with ⟨l, hlmem, hlsrc, hldst, hlact⟩
    have hl2 : l ∈ activeLinksOf (rebuildFrom st s) e.1 := by
      rw [hAL e.1]
      exact List.mem_filter.2 ⟨hlmem, by simp [hlact]⟩
    refine (mem_compEdges _ s pr).2 ⟨e.1, ?_, l, hl2, ?_⟩
    · rw [hRL]
      exact ((bfs_facts st s).2.2.1 e he).2.1
    · rw [hlsrc, hldst]
      exact hpr.symm

theorem bfs_pairs_nodup (st : NetState) (s : Nat) :
    ((bfsP st s).map (fun e => normPair e.1 e.2)).Nodup := by
  obtain ⟨hknd, hks, hent, _⟩ := bfs_facts st s
  have hPnd : (bfsP st s).Nodup := List.Nodup.of_map Prod.fst hknd
  refine List.Nodup.map_on ?_ hPnd
  intro e1 he1 e2 he2 hnp
  obtain ⟨a1, b1⟩ := e1
  obtain ⟨a2, b2⟩ := e2
  have hfun : ∀ a b c, (a, b) ∈ bfsP st s → (a, c) ∈ bfsP st s → b = c := by
    intro a b c h1 h2
    have h3 := lookup_eq_of_mem_nodup _ a b hknd h1
    have h4 := lookup_eq_of_mem_nodup _ a c hknd h2
    rw [h3] at h4
    exact Option.some.inj h4
  rcases normPair_cases a1 b1 a2 b2 hnp with ⟨h1, h2⟩ | ⟨h1, h2⟩
  · rw [h1, h2]
  · by_cases hk : a1 = a2
    · have he2b : (a1, b2) ∈ bfsP st s := by
        rw [hk]
        exact he2
      have hb := hfun a1 b1 b2 he1 he2b
      rw [hk, hb]
    · exfalso
      have hr1 := (hent (a1, b1) he1).2.2.2
      have hr2 := (hent (a2, b2) he2).2.2.2
      simp only at hr1 hr2
      rw [h2] at hr1
      rw [← h1] at hr2
      omega

/-- C1: after `_rebuild_spanning_tree` from start `s`, the active links,
viewed as an undirected graph over the switches reachable from `s` (one
undirected edge per switch pair, so parallel links between the same pair
collapse to a single edge, matching the claim's parenthetical), form a
tree: every reachable switch is connected to `s` through active-link
pairs, removing any one edge disconnects its endpoints (acyclicity), and
there are exactly `n - 1` edges for the `n` reachable switches.  The
hypotheses say each link is stored under its source switch, each link's
reverse is stored under its target, and no active link is a self-loop —
all invariants of every state this controller builds. -/
theorem rebuild_tree_property (st : NetState) (s : Nat)
    (hwf : ∀ e ∈ st.adj, ∀ l ∈ e.2, l.src = e.1)
    (hrev : ∀ e ∈ st.adj, ∀ l ∈ e.2, l.reverse ∈ linksOf st l.dst)
    (hself : ∀ l ∈ st.active, l.src ≠ l.dst) :
    rebuild st (some s) = Except.ok (rebuildFrom st s) ∧
    (∀ x, x ∈ reachList (rebuildFrom st s) s ↔ ReachVia (linksOf (rebuildFrom st s)) s x) ∧
    (∀ x ∈ reachList (rebuildFrom st s) s, PConn (compEdges (rebuildFrom st s) s) s x) ∧
    (∀ pr ∈ compEdges (rebuildFrom st s) s,
      ¬ PConn ((compEdges (rebuildFrom st s) s).filter (fun q => decide (q ≠ pr)))
        pr.1 pr.2) ∧
    (compEdges (rebuildFrom st s) s).length + 1 =
      (reachList (rebuildFrom st s) s).length := by
  have hrevA : ∀ d, ∀ l ∈ linksOf st d, l.reverse ∈ linksOf st l.dst := by
    intro d l hl
    rcases linksOf_mem_adj st d l hl with ⟨e, he, hed, hle⟩
    exact hrev e he l hle
  obtain ⟨hknd, hks, hent, hcl⟩ := bfs_facts st s
  have hRL : reachList (rebuildFrom st s) s = reachList st s := rfl
  have hEpairs := compEdges_eq_pairs st s hwf hrevA hself
  have hvisnd : (visList st s).Nodup := List.nodup_cons.2 ⟨hks, hknd⟩
  refine ⟨rfl, fun x => mem_reachList _ s x, ?_, ?_, ?_⟩
  · rw [hRL]
    have hstrong : ∀ n, ∀ x ∈ visList st s, posOf (visList st s) x = n →
        PConn (compEdges (rebuildFrom st s) s) s x := by
      intro n
      induction n using Nat.strong_induction_on with
      | _ n ihn =>
        intro x hx hpos
        rcases List.mem_cons.1 hx with h2 | h2
        · subst h2
          exact PConn.refl
        · rcases List.mem_map.1 h2 with ⟨e, he, hfst⟩
          obtain ⟨hnb, hnodes, hvis, hposlt⟩ := hent e he
          rw [hfst] at hposlt
          have hlt : posOf (visList st s) e.2 < n := by
            rw [← hpos]
            exact hposlt
          have hconn2 := ihn (posOf (visList st s) e.2) hlt e.2 hvis rfl
          have hedge : normPair e.1 e.2 ∈ compEdges (rebuildFrom st s) s :=
            (hEpairs _).2 (List.mem_map.2 ⟨e, he, rfl⟩)
          have hstep : (e.2, x) ∈ compEdges (rebuildFrom st s) s ∨
              (x, e.2) ∈ compEdges (rebuildFrom st s) s := by
            rw [← hfst]
            rcases normPair_eq_or e.1 e.2 with h3 | h3
            · right
              rw [← h3]
              exact hedge
            · left
              rw [← h3]
              exact hedge
          exact PConn.step e.2 x hconn2 hstep
    intro x hx
    exact hstrong (posOf (visList st s) x) x
      (visList_complete st s x ((mem_reachList st s x).1 hx)) rfl
  · intro pr hpr hPC
    have hprM := (hEpairs pr).1 hpr
    rcases List.mem_map.1 hprM with ⟨ev, hev, hevp⟩
    have hlkv : (bfsP st s).lookup ev.1 = some ev.2 :=
      lookup_eq_of_mem_nodup _ ev.1 ev.2 hknd hev
    have hlookT : ∀ y p, (bfsP st s).lookup y = some p →
        ((bfsP st s).map (fun q => (q.1, Link.mk q.1 0 q.2 0))).lookup y =
          some (Link.mk y 0 p 0) := by
      intro y p h
      rw [lookup_map_link, h]
      rfl
    have hparrank : ∀ e ∈ (bfsP st s).map (fun q => (q.1, Link.mk q.1 0 q.2 0)),
        rankOf (mkRanksAux 0 (visList st s)) e.2.dst <
          rankOf (mkRanksAux 0 (visList st s)) e.1 := by
      intro e he
      rcases List.mem_map.1 he with ⟨q, hq, hqe⟩
      obtain ⟨_, _, hvis2, hlt⟩ := hent q hq
      have hq1vis : q.1 ∈ visList st s :=
        List.mem_cons_of_mem _ (List.mem_map.2 ⟨q, hq, rfl⟩)
      rw [← hqe]
      show rankOf (mkRanksAux 0 (visList st s)) q.2 < rankOf (mkRanksAux 0 (visList st s)) q.1
      rw [rankOf_posOf _ _ hvisnd hvis2, rankOf_posOf _ _ hvisnd hq1vis]
      exact hlt
    have hDiff : ∀ q ∈ bfsP st s, normPair q.1 q.2 ≠ pr →
        (Desc ((bfsP st s).map (fun q2 => (q2.1, Link.mk q2.1 0 q2.2 0))) ev.1 q.1 ↔
         Desc ((bfsP st s).map (fun q2 => (q2.1, Link.mk q2.1 0 q2.2 0))) ev.1 q.2) := by
      intro q hq hne
      have hlkq := hlookT q.1 q.2 (lookup_eq_of_mem_nodup _ q.1 q.2 hknd hq)
      have hq1v : q.1 ≠ ev.1 := by
        intro h2
        apply hne
        have h3 := lookup_eq_of_mem_nodup _ q.1 q.2 hknd hq
        rw [h2, hlkv] at h3
        have h4 := Option.some.inj h3
        rw [h2, ← h4]
        exact hevp
      constructor
      · intro hd
        rcases desc_inv _ ev.1 q.1 hd with h2 | ⟨lq, hlq, hdq⟩
        · exact absurd h2 hq1v
        · rw [hlkq] at hlq
          have h5 := Option.some.inj hlq
          rw [← h5] at hdq
          exact hdq
      · intro hd
        exact Desc.step ev.1 q.1 (Link.mk q.1 0 q.2 0) hlkq hd
    have hSide : ∀ c, PConn ((compEdges (rebuildFrom st s) s).filter
        (fun q => decide (q ≠ pr))) pr.1 c →
        (Desc ((bfsP st s).map (fun q2 => (q2.1, Link.mk q2.1 0 q2.2 0))) ev.1 c ↔
         Desc ((bfsP st s).map (fun q2 => (q2.1, Link.mk q2.1 0 q2.2 0))) ev.1 pr.1) := by
      intro c hp
      induction hp with
      | refl => exact Iff.rfl
      | step b c hpc hedge ihp =>
        refine Iff.trans ?_ ihp
        have hBC : ∃ q, q ∈ bfsP st s ∧ ((b = q.1 ∧ c = q.2) ∨ (b = q.2 ∧ c = q.1)) ∧
            normPair q.1 q.2 ≠ pr := by
          rcases hedge with h2 | h2
          · obtain ⟨h3, h4⟩ := List.mem_filter.1 h2
            rw [decide_eq_true_eq] at h4
            rcases List.mem_map.1 ((hEpairs _).1 h3) with ⟨q, hq, hqp⟩
            refine ⟨q, hq, ?_, by rw [hqp]; exact h4⟩
            rcases normPair_eq_or q.1 q.2 with h5 | h5
            · rw [h5] at hqp
              rw [Prod.mk.injEq] at hqp
              exact Or.inl ⟨hqp.1.symm, hqp.2.symm⟩
            · rw [h5] at hqp
              rw [Prod.mk.injEq] at hqp
              exact Or.inr ⟨hqp.1.symm, hqp.2.symm⟩
          · obtain ⟨h3, h4⟩ := List.mem_filter.1 h2
            rw [decide_eq_true_eq] at h4
            rcases List.mem_map.1 ((hEpairs _).1 h3) with ⟨q, hq, hqp⟩
            refine ⟨q, hq, ?_, by rw [hqp]; exact h4⟩
            rcases normPair_eq_or q.1 q.2 with h5 | h5
            · rw [h5] at hqp
              rw [Prod.mk.injEq] at hqp
              exact Or.inr ⟨hqp.2.symm, hqp.1.symm⟩
            · rw [h5] at hqp
              rw [Prod.mk.injEq] at hqp
              exact Or.inl ⟨hqp.2.symm, hqp.1.symm⟩
        rcases hBC with ⟨q, hq, hor, hne⟩
        have hiff := hDiff q hq hne
        rcases hor with ⟨hb, hc⟩ | ⟨hb, hc⟩
        · rw [hc, hb]
          exact hiff.symm
        · rw [hc, hb]
          exact hiff
    have hiff := hSide pr.2 hPC
    have hnvp : ¬ Desc ((bfsP st s).map (fun q2 => (q2.1, Link.mk q2.1 0 q2.2 0)))
        ev.1 ev.2 := by
      intro h2
      have h3 := desc_rank _ (mkRanksAux 0 (visList st s)) hparrank ev.1 ev.2 h2
      have h4 := hparrank (ev.1, Link.mk ev.1 0 ev.2 0) (List.mem_map.2 ⟨ev, hev, rfl⟩)
      have h5 : rankOf (mkRanksAux 0 (visList st s)) ev.2 <
          rankOf (mkRanksAux 0 (visList st s)) ev.1 := h4
      omega
    rcases normPair_eq_or ev.1 ev.2 with h2 | h2
    · have heq : pr = (ev.1, ev.2) := hevp.symm.trans h2
      rw [heq] at hiff
      exact hnvp (hiff.2 (Desc.refl ev.1))
    · have heq : pr = (ev.2, ev.1) := hevp.symm.trans h2
      rw [heq] at hiff
      exact hnvp (hiff.1 (Desc.refl ev.1))
  · have hEnd : (compEdges (rebuildFrom st s) s).Nodup := nodup_dedupKeepFirst _
    have hMnd := bfs_pairs_nodup st s
    have hperm : (compEdges (rebuildFrom st s) s).Perm
        ((bfsP st s).map (fun e => normPair e.1 e.2)) :=
      (List.perm_ext_iff_of_nodup hEnd hMnd).2 hEpairs
    have hlen1 : (compEdges (rebuildFrom st s) s).length = (bfsP st s).length := by
      rw [hperm.length_eq, List.length_map]
    have hvperm : (visList st s).Perm (reachList st s) := by
      refine (List.perm_ext_iff_of_nodup hvisnd (nodup_dedupKeepFirst _)).2 ?_
      intro a
      constructor
      · intro ha
        rcases List.mem_cons.1 ha with h2 | h2
        · rw [h2]
          exact (mem_reachList st s s).2 ReachVia.refl
        · rcases List.mem_map.1 h2 with ⟨e, he, hfst⟩
          rw [← hfst]
          exact (hent e he).2.1
      · intro ha
        exact visList_complete st s a ((mem_reachList st s a).1 ha)
    have hlen2 : (visList st s).length = (reachList st s).length := hvperm.length_eq
    rw [hRL, hlen1, ← hlen2]
    show (bfsP st s).length + 1 = (s :: (bfsP st s).map Prod.fst).length
    rw [List.length_cons, List.length_map]

theorem rebuild_tree_property_witness :
    ((∀ e ∈ chainState.adj, ∀ l ∈ e.2, l.src = e.1) ∧
     (∀ e ∈ chainState.adj, ∀ l ∈ e.2, l.reverse ∈ linksOf chainState l.dst) ∧
     (∀ l ∈ chainState.active, l.src ≠ l.dst)) ∧
    (rebuild chainState (some 1) = Except.ok (rebuildFrom chainState 1) ∧
     (∀ x, x ∈ reachList (rebuildFrom chainState 1) 1 ↔
       ReachVia (linksOf (rebuildFrom chainState 1)) 1 x) ∧
     (∀ x ∈ reachList (rebuildFrom chainState 1) 1,
       PConn (compEdges (rebuildFrom chainState 1) 1) 1 x) ∧
     (∀ pr ∈ compEdges (rebuildFrom chainState 1) 1,
       ¬ PConn ((compEdges (rebuildFrom chainState 1) 1).filter (fun q => decide (q ≠ pr)))
         pr.1 pr.2) ∧
     (compEdges (rebuildFrom chainState 1) 1).length + 1 =
       (reachList (rebuildFrom chainState 1) 1).length) :=
  ⟨⟨by decide, by decide, by decide⟩,
    rebuild_tree_property chainState 1 (by decide) (by decide) (by decide)⟩
